import Mathlib

/-!
# GeeCache `lru` package: a byte-bounded LRU cache

Shallow embedding of `src/lru/lru.go`.

* `container/list` is modelled by a Lean list of `Element`s, front first; an
  element carries the address of its node, so that the pointers kept in the
  Go map are modelled by addresses.
* `map[string]*list.Element` is modelled by an association list from keys to
  addresses, with the Go operations lookup / assignment / `delete`.
* `int64` quantities (`maxBytes`, `nbytes`) are integers, and every `int64`
  addition and subtraction of the source is followed by the two's-complement
  wrap-around `wrap64`.  `Len() int` is a 64-bit integer, possibly negative.
* An interface value of type `Value` may be nil; the stored values of a cache
  reached by calls that returned are never nil, since `Add` panics on nil
  before it returns (`AddValue`).
* `OnEvicted` is either nil or configured; its invocations are recorded in a
  log together with the cache contents at the moment of the call.
* The `for` loop of `Add` is modelled with fuel: `none` means that the loop
  did not exit within the fuel given.
-/

namespace lru

/-- Two's-complement wrap-around of an integer to the range of `int64`. -/
def wrap64 (x : Int) : Int :=
  (x + 9223372036854775808) % 18446744073709551616 - 9223372036854775808

theorem wrap64_range (x : Int) :
    -9223372036854775808 ≤ wrap64 x ∧ wrap64 x < 9223372036854775808 := by
  unfold wrap64; omega

theorem wrap64_eq_self {x : Int} (h1 : -9223372036854775808 ≤ x)
    (h2 : x < 9223372036854775808) : wrap64 x = x := by
  unfold wrap64; omega

theorem wrap64_zero : wrap64 0 = 0 := by decide

theorem wrap64_add_left (a b : Int) : wrap64 (wrap64 a + b) = wrap64 (a + b) := by
  unfold wrap64; omega

theorem wrap64_add_right (a b : Int) : wrap64 (a + wrap64 b) = wrap64 (a + b) := by
  unfold wrap64; omega

theorem wrap64_sub_left (a b : Int) : wrap64 (wrap64 a - b) = wrap64 (a - b) := by
  unfold wrap64; omega

theorem wrap64_sub_right (a b : Int) : wrap64 (a - wrap64 b) = wrap64 (a - b) := by
  unfold wrap64; omega

/-- An integer that is at least `-2^63` and at most `B` wraps to at most `B`. -/
theorem wrap64_le_of_le {x B : Int} (h1 : -9223372036854775808 ≤ x) (h2 : x ≤ B) :
    wrap64 x ≤ B := by
  unfold wrap64; omega

/-- The Go interface `Value`: anything (not nil) that reports its size in
bytes. -/
class Value (V : Type) where
  /-- The method `Len() int`. -/
  Len : V → Int
  /-- The result of `Len()` is a Go `int`, of 64 bits. -/
  Len_int : ∀ v, -9223372036854775808 ≤ Len v ∧ Len v < 9223372036854775808

/-- The Go struct `entry`: the payload of a list node. -/
structure entry (V : Type) where
  key : String
  value : V
deriving DecidableEq, Repr

/-- A node of `container/list`: `addr` is the identity of the node (its
pointer), `Value` is the `*entry` it holds. -/
structure Element (V : Type) where
  addr : Nat
  Value : entry V
deriving DecidableEq, Repr

/-- One invocation of `OnEvicted(key, value)`, with the list, the map and
`nbytes` of the cache as they were when the callback was entered. -/
structure Call (V : Type) where
  key : String
  value : V
  ll : List (Element V)
  cache : List (String × Nat)
  nbytes : Int
deriving DecidableEq, Repr

/-- The Go struct `Cache`.  `calls` (the log of callback invocations) and
`next` (the next fresh node address) are bookkeeping of the embedding. -/
structure Cache (V : Type) where
  maxBytes : Int
  nbytes : Int
  ll : List (Element V)
  cache : List (String × Nat)
  OnEvicted : Bool
  calls : List (Call V)
  next : Nat
deriving DecidableEq, Repr

section ListAndMap

variable {V : Type}

/-- Go map lookup `m[k]` with the comma-ok form: `none` when `k` is absent. -/
def mapLookup (m : List (String × Nat)) (k : String) : Option Nat :=
  (m.find? (fun p => decide (p.1 = k))).map Prod.snd

/-- Go `delete(m, k)`. -/
def mapDelete (m : List (String × Nat)) (k : String) : List (String × Nat) :=
  m.filter (fun p => decide (p.1 ≠ k))

/-- Go map assignment `m[k] = a`. -/
def mapSet (m : List (String × Nat)) (k : String) (a : Nat) : List (String × Nat) :=
  (k, a) :: mapDelete m k

/-- Dereference of a node pointer: the node of the list at address `a`. -/
def elementAt (l : List (Element V)) (a : Nat) : Option (Element V) :=
  l.find? (fun e => decide (e.addr = a))

/-- The method `(*List).Remove`: unlink the node at address `a`. -/
def Remove (l : List (Element V)) (a : Nat) : List (Element V) :=
  l.filter (fun e => decide (e.addr ≠ a))

/-- The method `(*List).MoveToFront`: a node that is not in the list is left
alone, as in `container/list`. -/
def MoveToFront (l : List (Element V)) (a : Nat) : List (Element V) :=
  match elementAt l a with
  | some e => e :: Remove l a
  | none => l

/-- The method `(*List).Back`: the last node, or nil. -/
def Back (l : List (Element V)) : Option (Element V) :=
  l.getLast?

/-- The method `(*List).PushFront`, the new node being allocated at `a`. -/
def PushFront (l : List (Element V)) (a : Nat) (kv : entry V) : List (Element V) :=
  ⟨a, kv⟩ :: l

/-- The assignment `kv.value = value` through the node pointer `a`. -/
def setValue (l : List (Element V)) (a : Nat) (v : V) : List (Element V) :=
  l.map (fun e => if e.addr = a then { e with Value := { e.Value with value := v } } else e)

end ListAndMap

section Operations

variable {V : Type} [Value V]

/-- The sum `len(kv.key) + kv.value.Len()` as an integer, before any
wrap-around. -/
def rawBytes (kv : entry V) : Int :=
  (kv.key.utf8ByteSize : Int) + Value.Len kv.value

/-- The byte contribution `int64(len(kv.key)) + int64(kv.value.Len())`, an
`int64` addition. -/
def entryBytes (kv : entry V) : Int :=
  wrap64 ((kv.key.utf8ByteSize : Int) + Value.Len kv.value)

/-- The constructor `New`. -/
def New (maxBytes : Int) (onEvicted : Bool) : Cache V :=
  { maxBytes := maxBytes, nbytes := 0, ll := [], cache := [],
    OnEvicted := onEvicted, calls := [], next := 0 }

/-- The method `Get`: the result `(value, ok)` and the cache afterwards.  The
inner `none` branch stands for a map pointer to a node outside the list, which
no reachable cache has (`Inv.deref`). -/
def Get (c : Cache V) (key : String) : (Option V × Bool) × Cache V :=
  match mapLookup c.cache key with
  | some a =>
    match elementAt c.ll a with
    | some ele => ((some ele.Value.value, true), { c with ll := MoveToFront c.ll a })
    | none => ((none, false), c)
  | none => ((none, false), c)

/-- The method `RemoveOldest`. -/
def RemoveOldest (c : Cache V) : Cache V :=
  match Back c.ll with
  | none => c
  | some ele =>
    let ll := Remove c.ll ele.addr
    let kv := ele.Value
    let cache := mapDelete c.cache kv.key
    let nbytes := wrap64 (c.nbytes - entryBytes kv)
    if c.OnEvicted then
      { c with ll := ll, cache := cache, nbytes := nbytes,
               calls := c.calls ++ [⟨kv.key, kv.value, ll, cache, nbytes⟩] }
    else
      { c with ll := ll, cache := cache, nbytes := nbytes }

/-- Lines 71 to 80 of `Add`: the update of a present key or the insertion of a
new one, before the eviction loop. -/
def insertOrUpdate (c : Cache V) (key : String) (value : V) : Cache V :=
  match mapLookup c.cache key with
  | some a =>
    match elementAt c.ll a with
    | some ele =>
      { c with ll := setValue (MoveToFront c.ll a) a value,
               nbytes := wrap64 (c.nbytes +
                 wrap64 (Value.Len value - Value.Len ele.Value.value)) }
    | none => c
  | none =>
    { c with ll := PushFront c.ll c.next ⟨key, value⟩,
             cache := mapSet c.cache key c.next,
             nbytes := wrap64 (c.nbytes +
               wrap64 ((key.utf8ByteSize : Int) + Value.Len value)),
             next := c.next + 1 }

/-- The guard of the loop of `Add`: `c.maxBytes != 0 && c.maxBytes < c.nbytes`. -/
def overBudget (c : Cache V) : Bool :=
  decide (c.maxBytes ≠ 0) && decide (c.maxBytes < c.nbytes)

/-- Lines 81 to 83 of `Add`: the eviction loop, run for at most `fuel`
iterations; `none` when the guard still holds after them. -/
def evictLoop : Nat → Cache V → Option (Cache V)
  | 0, c => if overBudget c then none else some c
  | fuel + 1, c => if overBudget c then evictLoop fuel (RemoveOldest c) else some c

/-- The method `Add` on a value that is not nil. -/
def Add (fuel : Nat) (c : Cache V) (key : String) (value : V) : Option (Cache V) :=
  evictLoop fuel (insertOrUpdate c key value)

/-- How a call ends: it returns, it panics, or it is still in its loop when
the fuel is spent. -/
inductive Outcome (α : Type) where
  | returned (a : α)
  | panicked
  | looping
deriving DecidableEq, Repr

/-- The method `Add` on an interface value, nil (`none`) or not.  Both
branches call `value.Len()` (lines 74 and 79) before the loop, and a method
call on a nil interface panics. -/
def AddValue (fuel : Nat) (c : Cache V) (key : String) (value : Option V) :
    Outcome (Cache V) :=
  match value with
  | none => Outcome.panicked
  | some v =>
    match Add fuel c key v with
    | some d => Outcome.returned d
    | none => Outcome.looping

/-- The method `Len`. -/
def Len (c : Cache V) : Int :=
  (c.ll.length : Int)

/-- Presence of a key, as `Get` and `Add` test it: `_, ok := c.cache[key]`. -/
def contains (c : Cache V) (key : String) : Bool :=
  (mapLookup c.cache key).isSome

/-- The caches reachable from `New` by calls of `Get`, `Add` (when it
returns) and `RemoveOldest`. -/
inductive Reachable : Cache V → Prop
  | new (maxBytes : Int) (onEvicted : Bool) : Reachable (New maxBytes onEvicted)
  | get (c : Cache V) (key : String) : Reachable c → Reachable (Get c key).2
  | add (c : Cache V) (key : String) (value : V) (fuel : Nat) (d : Cache V) :
      Reachable c → Add fuel c key value = some d → Reachable d
  | removeOldest (c : Cache V) : Reachable c → Reachable (RemoveOldest c)

end Operations

/-- A value type for concrete runs: a string payload with a size field, whose
`Len` is the field as a Go `int`. -/
structure Sized where
  name : String
  size : Int
deriving DecidableEq, Repr

instance : Value Sized :=
  ⟨fun s => wrap64 s.size, fun s => wrap64_range s.size⟩

/-! ## Lemmas on the list and the map -/

section Lemmas

variable {V : Type}

theorem Remove_eq_self {l : List (Element V)} {a : Nat}
    (h : ∀ x ∈ l, x.addr ≠ a) : Remove l a = l := by
  unfold Remove
  rw [List.filter_eq_self]
  intro x hx
  simpa using h x hx

theorem setValue_eq_self {l : List (Element V)} {a : Nat} {v : V}
    (h : ∀ x ∈ l, x.addr ≠ a) : setValue l a v = l := by
  unfold setValue
  conv_rhs => rw [← List.map_id l]
  apply List.map_congr_left
  intro x hx
  simp [h x hx]

theorem Remove_append (l1 l2 : List (Element V)) (a : Nat) :
    Remove (l1 ++ l2) a = Remove l1 a ++ Remove l2 a := by
  simp [Remove]

theorem elementAt_split {l : List (Element V)} {a : Nat} {e : Element V}
    (hnd : (l.map Element.addr).Nodup) (h : elementAt l a = some e) :
    e.addr = a ∧ ∃ l1 l2, l = l1 ++ e :: l2 ∧ Remove l a = l1 ++ l2 ∧
      (∀ x ∈ l1, x.addr ≠ a) ∧ (∀ x ∈ l2, x.addr ≠ a) := by
  induction l with
  | nil => simp [elementAt] at h
  | cons x xs ih =>
    simp only [List.map_cons, List.nodup_cons, List.mem_map, not_exists, not_and] at hnd
    by_cases hx : x.addr = a
    · have hex : x = e := by simpa [elementAt, List.find?_cons, hx] using h
      subst hex
      have hxs : ∀ y ∈ xs, y.addr ≠ a := fun y hy hya => hnd.1 y hy (hya.trans hx.symm)
      refine ⟨hx, [], xs, rfl, ?_, by simp, hxs⟩
      have : Remove (x :: xs) a = Remove xs a := by simp [Remove, hx]
      rw [this, Remove_eq_self hxs]; rfl
    · have h2 : elementAt xs a = some e := by
        simpa [elementAt, List.find?_cons, hx] using h
      obtain ⟨hea, l1, l2, hl, hr, h1, h2⟩ := ih hnd.2 h2
      refine ⟨hea, x :: l1, l2, by simp [hl], ?_, ?_, h2⟩
      · have : Remove (x :: xs) a = x :: Remove xs a := by simp [Remove, hx]
        rw [this, hr]; rfl
      · intro y hy
        rcases List.mem_cons.1 hy with rfl | hy
        · exact hx
        · exact h1 y hy

theorem elementAt_none {l : List (Element V)} {a : Nat} :
    elementAt l a = none ↔ ∀ x ∈ l, x.addr ≠ a := by
  simp [elementAt]

theorem elementAt_mem {l : List (Element V)} {a : Nat} {e : Element V}
    (h : elementAt l a = some e) : e ∈ l ∧ e.addr = a := by
  unfold elementAt at h
  exact ⟨List.mem_of_find?_eq_some h, by simpa using List.find?_some h⟩

theorem elementAt_of_mem {l : List (Element V)} {e : Element V}
    (hnd : (l.map Element.addr).Nodup) (he : e ∈ l) : elementAt l e.addr = some e := by
  induction l with
  | nil => simp at he
  | cons x xs ih =>
    simp only [List.map_cons, List.nodup_cons, List.mem_map, not_exists, not_and] at hnd
    rcases List.mem_cons.1 he with rfl | he
    · simp [elementAt]
    · have hne : x.addr ≠ e.addr := fun h => hnd.1 e he h.symm
      have := ih hnd.2 he
      simpa [elementAt, List.find?_cons, hne] using this

theorem MoveToFront_split {l : List (Element V)} {a : Nat} {e : Element V}
    (hnd : (l.map Element.addr).Nodup) (h : elementAt l a = some e) :
    e.addr = a ∧ ∃ l1 l2, l = l1 ++ e :: l2 ∧ MoveToFront l a = e :: (l1 ++ l2) ∧
      (∀ x ∈ l1, x.addr ≠ a) ∧ (∀ x ∈ l2, x.addr ≠ a) := by
  obtain ⟨hea, l1, l2, hl, hr, h1, h2⟩ := elementAt_split hnd h
  exact ⟨hea, l1, l2, hl, by simp [MoveToFront, h, hr], h1, h2⟩

theorem MoveToFront_perm {l : List (Element V)} {a : Nat}
    (hnd : (l.map Element.addr).Nodup) : (MoveToFront l a).Perm l := by
  cases h : elementAt l a with
  | none => simp [MoveToFront, h]
  | some e =>
    obtain ⟨_, l1, l2, hl, hm, _, _⟩ := MoveToFront_split hnd h
    rw [hm, hl]
    exact List.perm_middle.symm

theorem Back_split {l : List (Element V)} {e : Element V} (h : Back l = some e) :
    l = l.dropLast ++ [e] := by
  unfold Back at h
  have hne : l ≠ [] := by rintro rfl; simp at h
  have := List.dropLast_append_getLast hne
  rw [List.getLast?_eq_getLast l hne] at h
  injection h with h
  rw [h] at this
  exact this.symm

theorem Remove_back {l : List (Element V)} {e : Element V}
    (hnd : (l.map Element.addr).Nodup) (h : Back l = some e) :
    Remove l e.addr = l.dropLast := by
  have hl := Back_split h
  rw [hl] at hnd
  simp only [List.map_append, List.map_cons, List.map_nil] at hnd
  have hd : ∀ x ∈ l.dropLast, x.addr ≠ e.addr := by
    intro x hx hxe
    have := (List.nodup_append.1 hnd).2.2
    exact this (List.mem_map_of_mem _ hx) (by simp [hxe])
  conv_lhs => rw [hl]
  rw [Remove_append, Remove_eq_self hd]
  simp [Remove]

theorem mapLookup_eq_some {m : List (String × Nat)} {k : String} {a : Nat}
    (hnd : (m.map Prod.fst).Nodup) : mapLookup m k = some a ↔ (k, a) ∈ m := by
  induction m with
  | nil => simp [mapLookup]
  | cons p ps ih =>
    simp only [List.map_cons, List.nodup_cons, List.mem_map, not_exists, not_and] at hnd
    by_cases hp : p.1 = k
    · have hnot : ∀ b, (k, b) ∉ ps := fun b hb => hnd.1 (k, b) hb hp.symm
      obtain ⟨pk, pa⟩ := p
      simp only at hp
      subst hp
      simp [mapLookup, List.find?_cons, hnot]
      constructor
      · intro h; exact h.symm
      · intro h; exact h.symm
    · have := ih hnd.2
      obtain ⟨pk, pa⟩ := p
      simp only at hp
      have hne : ¬ (k = pk) := fun h => hp h.symm
      simp only [mapLookup, List.find?_cons, hp, decide_False, List.mem_cons, Prod.mk.injEq,
        hne, false_and, false_or] at this ⊢
      exact this

theorem mapLookup_eq_none {m : List (String × Nat)} {k : String} :
    mapLookup m k = none ↔ ∀ a, (k, a) ∉ m := by
  simp only [mapLookup, Option.map_eq_none', List.find?_eq_none, decide_eq_true_eq]
  constructor
  · intro h a ha; exact h (k, a) ha rfl
  · rintro h ⟨k2, a⟩ hp rfl; exact h a hp

theorem mem_mapDelete {m : List (String × Nat)} {k : String} {p : String × Nat} :
    p ∈ mapDelete m k ↔ p ∈ m ∧ p.1 ≠ k := by
  simp [mapDelete]

theorem mapDelete_nodup {m : List (String × Nat)} {k : String}
    (hnd : (m.map Prod.fst).Nodup) : ((mapDelete m k).map Prod.fst).Nodup := by
  unfold mapDelete
  exact hnd.sublist ((List.filter_sublist m).map Prod.fst)

theorem mapSet_nodup {m : List (String × Nat)} {k : String} {a : Nat}
    (hnd : (m.map Prod.fst).Nodup) : ((mapSet m k a).map Prod.fst).Nodup := by
  unfold mapSet
  simp only [List.map_cons, List.nodup_cons]
  refine ⟨?_, mapDelete_nodup hnd⟩
  simp only [List.mem_map, not_exists, not_and]
  intro p hp hpk
  exact (mem_mapDelete.1 hp).2 hpk

theorem elementAt_Remove_ne {l : List (Element V)} {a b : Nat} (h : a ≠ b) :
    elementAt (Remove l a) b = elementAt l b := by
  induction l with
  | nil => rfl
  | cons x xs ih =>
    unfold elementAt Remove at ih ⊢
    by_cases hxa : x.addr = a
    · have hxb : ¬ x.addr = b := fun hb => h (hxa.symm.trans hb)
      rw [List.filter_cons_of_neg (by simpa using hxa), List.find?_cons_of_neg _ (by simpa using hxb)]
      exact ih
    · rw [List.filter_cons_of_pos (by simpa using hxa)]
      by_cases hxb : x.addr = b
      · rw [List.find?_cons_of_pos _ (by simpa using hxb),
          List.find?_cons_of_pos _ (by simpa using hxb)]
      · rw [List.find?_cons_of_neg _ (by simpa using hxb),
          List.find?_cons_of_neg _ (by simpa using hxb)]
        exact ih

/-- Moving a node to the front does not change what any pointer refers to. -/
theorem elementAt_MoveToFront (l : List (Element V)) (a b : Nat) :
    elementAt (MoveToFront l a) b = elementAt l b := by
  unfold MoveToFront
  cases h : elementAt l a with
  | none => rfl
  | some e =>
    have hea := (elementAt_mem h).2
    show elementAt (e :: Remove l a) b = elementAt l b
    by_cases hab : a = b
    · subst hab
      rw [h]
      unfold elementAt
      exact List.find?_cons_of_pos _ (by simpa using hea)
    · have hne : ¬ e.addr = b := fun hb => hab (hea.symm.trans hb)
      have hr : elementAt (Remove l a) b = elementAt l b := elementAt_Remove_ne hab
      rw [← hr]
      unfold elementAt
      rw [List.find?_cons_of_neg]
      simpa using hne

theorem mapLookup_mapDelete_ne {m : List (String × Nat)} {k j : String} (h : j ≠ k) :
    mapLookup (mapDelete m k) j = mapLookup m j := by
  induction m with
  | nil => rfl
  | cons p ps ih =>
    unfold mapLookup mapDelete at ih ⊢
    by_cases hpk : p.1 = k
    · have hpj : ¬ p.1 = j := fun hj => h (hj.symm.trans hpk)
      rw [List.filter_cons_of_neg (by simpa using hpk),
        List.find?_cons_of_neg _ (by simpa using hpj)]
      exact ih
    · rw [List.filter_cons_of_pos (by simpa using hpk)]
      by_cases hpj : p.1 = j
      · rw [List.find?_cons_of_pos _ (by simpa using hpj),
          List.find?_cons_of_pos _ (by simpa using hpj)]
      · rw [List.find?_cons_of_neg _ (by simpa using hpj),
          List.find?_cons_of_neg _ (by simpa using hpj)]
        exact ih

theorem mapLookup_mapDelete_self (m : List (String × Nat)) (k : String) :
    mapLookup (mapDelete m k) k = none := by
  rw [mapLookup_eq_none]
  intro a ha
  exact (mem_mapDelete.1 ha).2 rfl

end Lemmas

/-! ## The representation invariant -/

section Invariant

variable {V : Type} [Value V]

/-- The representation invariant of `Cache`: node addresses and keys are
unique in the list, the map has each key once, the map holds exactly the
pairs (key, address) of the list nodes, every address in use is below the
next fresh one, and `nbytes` is the sum of the byte contributions, reduced to
`int64`. -/
structure Inv (c : Cache V) : Prop where
  addrs : (c.ll.map Element.addr).Nodup
  keys : (c.ll.map (fun e => e.Value.key)).Nodup
  mapKeys : (c.cache.map Prod.fst).Nodup
  agree : ∀ k a, (k, a) ∈ c.cache ↔ ∃ e ∈ c.ll, e.addr = a ∧ e.Value.key = k
  fresh : ∀ e ∈ c.ll, e.addr < c.next
  acct : c.nbytes = wrap64 ((c.ll.map (fun e => rawBytes e.Value)).sum)

theorem Inv.New (maxBytes : Int) (onEvicted : Bool) :
    Inv (New maxBytes onEvicted : Cache V) := by
  constructor <;> simp [lru.New, wrap64_zero]

/-- A pointer found in the map of a consistent cache can be dereferenced:
its node is in the list and carries the key looked up. -/
theorem Inv.deref {c : Cache V} (hc : Inv c) {k : String} {a : Nat}
    (h : mapLookup c.cache k = some a) :
    ∃ e, elementAt c.ll a = some e ∧ e.Value.key = k ∧ e.addr = a := by
  obtain ⟨e, he, hea, hek⟩ := (hc.agree k a).1 ((mapLookup_eq_some hc.mapKeys).1 h)
  refine ⟨e, ?_, hek, hea⟩
  rw [← hea]
  exact elementAt_of_mem hc.addrs he

theorem Inv.lookup_of_mem {c : Cache V} (hc : Inv c) {e : Element V} (he : e ∈ c.ll) :
    mapLookup c.cache e.Value.key = some e.addr :=
  (mapLookup_eq_some hc.mapKeys).2 ((hc.agree _ _).2 ⟨e, he, rfl, rfl⟩)

theorem Inv.lookup_none {c : Cache V} (hc : Inv c) {k : String} :
    mapLookup c.cache k = none ↔ ∀ e ∈ c.ll, e.Value.key ≠ k := by
  rw [mapLookup_eq_none]
  constructor
  · intro h e he hk
    exact h e.addr ((hc.agree _ _).2 ⟨e, he, rfl, hk⟩)
  · intro h a ha
    obtain ⟨e, he, _, hk⟩ := (hc.agree _ _).1 ha
    exact h e he hk

/-- Reordering the list keeps the invariant. -/
theorem Inv.of_perm {c : Cache V} (hc : Inv c) {l : List (Element V)} (hp : l.Perm c.ll) :
    Inv { c with ll := l } where
  addrs := (hp.map Element.addr).nodup_iff.2 hc.addrs
  keys := (hp.map _).nodup_iff.2 hc.keys
  mapKeys := hc.mapKeys
  agree := by
    intro k a
    rw [hc.agree]
    constructor
    · rintro ⟨e, he, h⟩; exact ⟨e, hp.mem_iff.2 he, h⟩
    · rintro ⟨e, he, h⟩; exact ⟨e, hp.mem_iff.1 he, h⟩
  fresh := fun e he => hc.fresh e (hp.mem_iff.1 he)
  acct := by
    show c.nbytes = _
    rw [hc.acct]
    exact congrArg wrap64 ((hp.map _).sum_eq).symm

omit [Value V] in
theorem Get_miss {c : Cache V} {key : String} (h : mapLookup c.cache key = none) :
    Get c key = ((none, false), c) := by
  simp [lru.Get, h]

omit [Value V] in
theorem Get_hit {c : Cache V} {key : String} {a : Nat} {e : Element V}
    (h : mapLookup c.cache key = some a) (h2 : elementAt c.ll a = some e) :
    Get c key = ((some e.Value.value, true), { c with ll := MoveToFront c.ll a }) := by
  simp [lru.Get, h, h2]

omit [Value V] in
theorem Get_dangling {c : Cache V} {key : String} {a : Nat}
    (h : mapLookup c.cache key = some a) (h2 : elementAt c.ll a = none) :
    Get c key = ((none, false), c) := by
  simp [lru.Get, h, h2]

theorem Inv.Get {c : Cache V} (hc : Inv c) (key : String) : Inv (Get c key).2 := by
  cases h : mapLookup c.cache key with
  | none => rw [Get_miss h]; exact hc
  | some a =>
    cases h2 : elementAt c.ll a with
    | none => rw [Get_dangling h h2]; exact hc
    | some e => rw [Get_hit h h2]; exact hc.of_perm (MoveToFront_perm hc.addrs)

theorem RemoveOldest_empty {c : Cache V} (h : c.ll = []) : RemoveOldest c = c := by
  simp [lru.RemoveOldest, Back, h]

/-- The list, the map and `nbytes` after `RemoveOldest` on a consistent cache
whose list ends with `e`. -/
theorem RemoveOldest_back {c : Cache V} (hc : Inv c) {init : List (Element V)} {e : Element V}
    (h : c.ll = init ++ [e]) :
    RemoveOldest c =
      { c with ll := init, cache := mapDelete c.cache e.Value.key,
               nbytes := wrap64 (c.nbytes - entryBytes e.Value),
               calls := if c.OnEvicted then
                 c.calls ++ [⟨e.Value.key, e.Value.value, init,
                   mapDelete c.cache e.Value.key, wrap64 (c.nbytes - entryBytes e.Value)⟩]
                 else c.calls } := by
  have hb : Back c.ll = some e := by simp [Back, h]
  have hr : Remove c.ll e.addr = init := by
    rw [Remove_back hc.addrs hb, h]; simp
  unfold lru.RemoveOldest
  rw [hb]
  simp only [hr]
  cases c.OnEvicted <;> simp

theorem Inv.removeBack {c : Cache V} (hc : Inv c) {init : List (Element V)} {e : Element V}
    (h : c.ll = init ++ [e]) (calls : List (Call V)) :
    Inv { c with ll := init, cache := mapDelete c.cache e.Value.key,
                 nbytes := wrap64 (c.nbytes - entryBytes e.Value), calls := calls } := by
  have ha := hc.addrs
  have hk := hc.keys
  rw [h] at ha hk
  simp only [List.map_append, List.map_cons, List.map_nil] at ha hk
  have hkd : ∀ x ∈ init, x.Value.key ≠ e.Value.key := by
    intro x hx hxe
    exact (List.nodup_append.1 hk).2.2 (List.mem_map_of_mem (fun e => e.Value.key) hx)
      (by simp [hxe])
  refine ⟨(List.nodup_append.1 ha).1, (List.nodup_append.1 hk).1,
    mapDelete_nodup hc.mapKeys, ?_, ?_, ?_⟩
  · intro k a
    show (k, a) ∈ mapDelete c.cache e.Value.key ↔ ∃ x ∈ init, x.addr = a ∧ x.Value.key = k
    rw [mem_mapDelete, hc.agree, h]
    constructor
    · rintro ⟨⟨x, hx, hxa, hxk⟩, hne⟩
      rcases List.mem_append.1 hx with hx | hx
      · exact ⟨x, hx, hxa, hxk⟩
      · simp only [List.mem_singleton] at hx
        subst hx
        exact absurd hxk.symm hne
    · rintro ⟨x, hx, hxa, hxk⟩
      exact ⟨⟨x, List.mem_append_left _ hx, hxa, hxk⟩, by
        show k ≠ e.Value.key
        rw [← hxk]; exact hkd x hx⟩
  · intro x hx
    exact hc.fresh x (by rw [h]; exact List.mem_append_left _ hx)
  · show wrap64 (c.nbytes - entryBytes e.Value) = _
    rw [hc.acct, h]
    simp only [List.map_append, List.sum_append, List.map_cons, List.map_nil,
      List.sum_cons, List.sum_nil, entryBytes, rawBytes]
    unfold wrap64; omega

theorem Inv.RemoveOldest {c : Cache V} (hc : Inv c) : Inv (RemoveOldest c) := by
  cases hb : Back c.ll with
  | none =>
    have : c.ll = [] := by simpa [Back] using hb
    rw [RemoveOldest_empty this]; exact hc
  | some e =>
    rw [RemoveOldest_back hc (Back_split hb)]
    exact hc.removeBack (Back_split hb) _

theorem insertOrUpdate_new {c : Cache V} {key : String} (value : V)
    (h : mapLookup c.cache key = none) :
    insertOrUpdate c key value =
      { c with ll := ⟨c.next, ⟨key, value⟩⟩ :: c.ll,
               cache := mapSet c.cache key c.next,
               nbytes := wrap64 (c.nbytes +
                 wrap64 ((key.utf8ByteSize : Int) + Value.Len value)),
               next := c.next + 1 } := by
  simp [lru.insertOrUpdate, h, PushFront]

/-- The update branch of `Add` on a consistent cache: the node of the key is
moved to the front with its new value, the other nodes keep their order. -/
theorem insertOrUpdate_hit {c : Cache V} (hc : Inv c) {key : String} {a : Nat} (value : V)
    (h : mapLookup c.cache key = some a) :
    ∃ e l1 l2, c.ll = l1 ++ e :: l2 ∧ e.addr = a ∧ e.Value.key = key ∧
      insertOrUpdate c key value =
        { c with ll := ⟨a, ⟨key, value⟩⟩ :: (l1 ++ l2),
                 nbytes := wrap64 (c.nbytes +
                   wrap64 (Value.Len value - Value.Len e.Value.value)) } := by
  obtain ⟨e, he, hek, hea⟩ := hc.deref h
  obtain ⟨_, l1, l2, hl, hm, h1, h2⟩ := MoveToFront_split hc.addrs he
  refine ⟨e, l1, l2, hl, hea, hek, ?_⟩
  have hrest : ∀ x ∈ l1 ++ l2, x.addr ≠ a := by
    intro x hx
    rcases List.mem_append.1 hx with hx | hx
    · exact h1 x hx
    · exact h2 x hx
  have hs : setValue (e :: (l1 ++ l2)) a value = ⟨a, ⟨key, value⟩⟩ :: (l1 ++ l2) := by
    have : setValue (e :: (l1 ++ l2)) a value =
        ⟨e.addr, ⟨e.Value.key, value⟩⟩ :: setValue (l1 ++ l2) a value := by
      simp [setValue, hea]
    rw [this, setValue_eq_self hrest, hea, hek]
  simp only [lru.insertOrUpdate, h, he, hm, hs]

theorem Inv.insertOrUpdate {c : Cache V} (hc : Inv c) (key : String) (value : V) :
    Inv (insertOrUpdate c key value) := by
  cases h : mapLookup c.cache key with
  | none =>
    rw [insertOrUpdate_new value h]
    have hk := hc.lookup_none.1 h
    refine ⟨?_, ?_, mapSet_nodup hc.mapKeys, ?_, ?_, ?_⟩
    · simp only [List.map_cons, List.nodup_cons, List.mem_map, not_exists, not_and]
      exact ⟨fun x hx hxa => absurd hxa (Nat.ne_of_lt (hc.fresh x hx)), hc.addrs⟩
    · simp only [List.map_cons, List.nodup_cons, List.mem_map, not_exists, not_and]
      exact ⟨fun x hx hxk => hk x hx hxk, hc.keys⟩
    · intro k a
      show (k, a) ∈ mapSet c.cache key c.next ↔
        ∃ x ∈ (⟨c.next, ⟨key, value⟩⟩ : Element V) :: c.ll, x.addr = a ∧ x.Value.key = k
      simp only [mapSet, List.mem_cons, mem_mapDelete, hc.agree, Prod.mk.injEq,
        exists_eq_or_imp]
      constructor
      · rintro (⟨rfl, rfl⟩ | ⟨hx, _⟩)
        · exact Or.inl ⟨rfl, rfl⟩
        · exact Or.inr hx
      · rintro (⟨rfl, rfl⟩ | ⟨x, hx, hxa, hxk⟩)
        · exact Or.inl ⟨rfl, rfl⟩
        · exact Or.inr ⟨⟨x, hx, hxa, hxk⟩, by
            show k ≠ key
            rw [← hxk]; exact hk x hx⟩
    · intro x hx
      rcases List.mem_cons.1 hx with rfl | hx
      · exact Nat.lt_succ_self _
      · exact Nat.lt_succ_of_lt (hc.fresh x hx)
    · show wrap64 (c.nbytes + wrap64 ((key.utf8ByteSize : Int) + Value.Len value)) = _
      rw [hc.acct]
      simp only [List.map_cons, List.sum_cons, rawBytes]
      unfold wrap64; omega
  | some a =>
    obtain ⟨e, l1, l2, hl, hea, hek, heq⟩ := insertOrUpdate_hit hc value h
    rw [heq]
    have ha := hc.addrs
    have hk := hc.keys
    have hp : (e :: (l1 ++ l2)).Perm c.ll := by rw [hl]; exact List.perm_middle.symm
    have ha2 := (hp.map Element.addr).nodup_iff.2 ha
    have hk2 := (hp.map (fun e => e.Value.key)).nodup_iff.2 hk
    simp only [List.map_cons, hea, hek] at ha2 hk2
    refine ⟨by simpa using ha2, by simpa using hk2, hc.mapKeys, ?_, ?_, ?_⟩
    · intro k b
      show (k, b) ∈ c.cache ↔ ∃ x ∈ (⟨a, ⟨key, value⟩⟩ : Element V) :: (l1 ++ l2), _
      rw [hc.agree]
      constructor
      · rintro ⟨x, hx, hxa, hxk⟩
        rcases List.mem_cons.1 (hp.mem_iff.2 hx) with rfl | hx
        · exact ⟨_, List.mem_cons_self _ _, by simpa [hea] using hxa, by simpa [hek] using hxk⟩
        · exact ⟨x, List.mem_cons_of_mem _ hx, hxa, hxk⟩
      · rintro ⟨x, hx, hxa, hxk⟩
        rcases List.mem_cons.1 hx with rfl | hx
        · exact ⟨e, hp.mem_iff.1 (List.mem_cons_self _ _), by simpa [hea] using hxa,
            by simpa [hek] using hxk⟩
        · exact ⟨x, hp.mem_iff.1 (List.mem_cons_of_mem _ hx), hxa, hxk⟩
    · intro x hx
      rcases List.mem_cons.1 hx with rfl | hx
      · have := hc.fresh e (hp.mem_iff.1 (List.mem_cons_self _ _))
        simpa [hea] using this
      · exact hc.fresh x (hp.mem_iff.1 (List.mem_cons_of_mem _ hx))
    · show wrap64 (c.nbytes + wrap64 (Value.Len value - Value.Len e.Value.value)) = _
      rw [hc.acct, hl]
      simp only [List.map_append, List.sum_append, List.map_cons, List.sum_cons, rawBytes,
        hek]
      unfold wrap64; omega

omit [Value V] in
theorem overBudget_iff {c : Cache V} :
    overBudget c = true ↔ c.maxBytes ≠ 0 ∧ c.maxBytes < c.nbytes := by
  simp [overBudget]

theorem Inv.evictLoop {fuel : Nat} {c d : Cache V} (hc : Inv c)
    (h : evictLoop fuel c = some d) : Inv d := by
  induction fuel generalizing c with
  | zero =>
    unfold lru.evictLoop at h
    split at h
    · cases h
    · cases h; exact hc
  | succ n ih =>
    unfold lru.evictLoop at h
    split at h
    · exact ih hc.RemoveOldest h
    · cases h; exact hc

theorem Inv.Add {fuel : Nat} {c d : Cache V} {key : String} {value : V} (hc : Inv c)
    (h : Add fuel c key value = some d) : Inv d :=
  (hc.insertOrUpdate key value).evictLoop h

/-- Every reachable cache satisfies the representation invariant. -/
theorem Reachable.inv {c : Cache V} (h : Reachable c) : Inv c := by
  induction h with
  | new maxBytes onEvicted => exact Inv.New maxBytes onEvicted
  | get c key _ ih => exact ih.Get key
  | add c key value fuel d _ hd ih => exact ih.Add hd
  | removeOldest c _ ih => exact ih.RemoveOldest

end Invariant



/-! ## The eviction loop -/

section Loop

variable {V : Type} [Value V]

/-- The pair `(key, value)` a callback invocation was made with. -/
def callPair (x : Call V) : String × V := (x.key, x.value)

/-- The pair `(key, value)` held by a list node. -/
def elementPair (e : Element V) : String × V := (e.Value.key, e.Value.value)

/-- Removing the oldest entry as many times as `gone` is long removes exactly
the back segment `gone`, oldest first. -/
theorem iterate_RemoveOldest {gone : List (Element V)} :
    ∀ {c : Cache V} {keep : List (Element V)}, Inv c → c.ll = keep ++ gone →
      (RemoveOldest^[gone.length] c).ll = keep ∧
      (RemoveOldest^[gone.length] c).maxBytes = c.maxBytes ∧
      (RemoveOldest^[gone.length] c).OnEvicted = c.OnEvicted ∧
      (RemoveOldest^[gone.length] c).next = c.next ∧
      (RemoveOldest^[gone.length] c).nbytes =
        wrap64 (c.nbytes - (gone.map (fun e => rawBytes e.Value)).sum) ∧
      Inv (RemoveOldest^[gone.length] c) ∧
      (RemoveOldest^[gone.length] c).calls.map callPair =
        c.calls.map callPair ++
          (if c.OnEvicted then gone.reverse.map elementPair else []) := by
  induction gone using List.reverseRecOn with
  | nil =>
    intro c keep hc hl
    simp only [List.append_nil] at hl
    have hnb : c.nbytes = wrap64 c.nbytes := by
      have := wrap64_range ((c.ll.map (fun e => rawBytes e.Value)).sum)
      rw [← hc.acct] at this
      rw [wrap64_eq_self this.1 this.2]
    simp [hl, hc]
    exact hnb
  | append_singleton g e ih =>
    intro c keep hc hl
    have hl2 : c.ll = (keep ++ g) ++ [e] := by rw [hl, List.append_assoc]
    have hR := RemoveOldest_back hc hl2
    have hInv : Inv (RemoveOldest c) := hc.RemoveOldest
    have hlen : (g ++ [e]).length = g.length + 1 := by simp
    rw [hlen, Function.iterate_succ_apply]
    have hRll : (RemoveOldest c).ll = keep ++ g := by rw [hR]
    obtain ⟨h1, h2, h3, h4, h5, h6, h7⟩ := ih hInv hRll
    refine ⟨h1, ?_, ?_, ?_, ?_, h6, ?_⟩
    · rw [h2, hR]
    · rw [h3, hR]
    · rw [h4, hR]
    · rw [h5, hR]
      simp only [List.map_append, List.sum_append, List.map_cons, List.map_nil,
        List.sum_cons, List.sum_nil, entryBytes, rawBytes]
      unfold wrap64; omega
    · rw [h7]
      have hOn : (RemoveOldest c).OnEvicted = c.OnEvicted := by rw [hR]
      rw [hOn, hR]
      cases hcb : c.OnEvicted
      · simp
      · simp [callPair, elementPair]

/-- What a returning eviction loop has done: it removed a back segment `gone`
of the list, one `RemoveOldest` per entry, the guard holding before each
removal and failing at the end. -/
theorem evictLoop_spec {fuel : Nat} :
    ∀ {c d : Cache V}, Inv c → evictLoop fuel c = some d →
      ∃ gone, c.ll = d.ll ++ gone ∧ d = RemoveOldest^[gone.length] c ∧
        overBudget d = false ∧
        ∀ i, i < gone.length → overBudget (RemoveOldest^[i] c) = true := by
  induction fuel with
  | zero =>
    intro c d hc h
    unfold lru.evictLoop at h
    split at h
    · cases h
    · next hb =>
      cases h
      exact ⟨[], by simp, rfl, by simpa using hb, by simp⟩
  | succ n ih =>
    intro c d hc h
    unfold lru.evictLoop at h
    split at h
    · next hb =>
      obtain ⟨gone, hl, hd, hdb, hi⟩ := ih hc.RemoveOldest h
      cases hback : Back c.ll with
      | none =>
        have hem : c.ll = [] := by simpa [Back] using hback
        have hR := RemoveOldest_empty hem
        rw [hR] at hl hd hi
        exact ⟨gone, hl, hd, hdb, hi⟩
      | some e =>
        have hsplit := Back_split hback
        have hR := RemoveOldest_back hc hsplit
        have hRll : (RemoveOldest c).ll = c.ll.dropLast := by rw [hR]
        refine ⟨gone ++ [e], ?_, ?_, hdb, ?_⟩
        · rw [← List.append_assoc, ← hl, hRll]; exact hsplit
        · have hlen : (gone ++ [e]).length = gone.length + 1 := by simp
          rw [hlen, Function.iterate_succ_apply]; exact hd
        · intro i hi2
          cases i with
          | zero => simpa using hb
          | succ j =>
            rw [Function.iterate_succ_apply]
            apply hi
            simp at hi2
            omega
    · next hb =>
      cases h
      exact ⟨[], by simp, rfl, by simpa using hb, by simp⟩

/-- The loop exits within `gone.length` iterations once removing the back
segment `gone` leaves a list whose contributions, summed in `int64`, are within
the budget (or when there is no budget). -/
theorem evictLoop_terminates {gone : List (Element V)} :
    ∀ {c : Cache V} {keep : List (Element V)}, Inv c → c.ll = keep ++ gone →
      (c.maxBytes = 0 ∨
        wrap64 ((keep.map (fun e => rawBytes e.Value)).sum) ≤ c.maxBytes) →
      ∃ d, evictLoop gone.length c = some d := by
  induction gone using List.reverseRecOn with
  | nil =>
    intro c keep hc hl hstop
    have hb : overBudget c = false := by
      rw [Bool.eq_false_iff, Ne, overBudget_iff]
      have hacct := hc.acct
      rw [hl, List.append_nil] at hacct
      rw [← hacct] at hstop
      omega
    exact ⟨c, by simp [lru.evictLoop, hb]⟩
  | append_singleton g e ih =>
    intro c keep hc hl hstop
    have hl2 : c.ll = (keep ++ g) ++ [e] := by rw [hl, List.append_assoc]
    have hR := RemoveOldest_back hc hl2
    have hlen : (g ++ [e]).length = g.length + 1 := by simp
    rw [hlen]
    cases hb : overBudget c
    · exact ⟨c, by simp [lru.evictLoop, hb]⟩
    · have hRll : (RemoveOldest c).ll = keep ++ g := by rw [hR]
      have hstop2 : (RemoveOldest c).maxBytes = 0 ∨
          wrap64 ((keep.map (fun e => rawBytes e.Value)).sum) ≤
            (RemoveOldest c).maxBytes := by
        rw [hR]; exact hstop
      obtain ⟨d, hd⟩ := ih hc.RemoveOldest hRll hstop2
      exact ⟨d, by simp [lru.evictLoop, hb, hd]⟩

theorem evictLoop_mono_succ {n : Nat} :
    ∀ {c d : Cache V}, evictLoop n c = some d → evictLoop (n + 1) c = some d := by
  induction n with
  | zero =>
    intro c d h
    unfold lru.evictLoop at h
    split at h
    · cases h
    · next hb => cases h; simp [lru.evictLoop, hb]
  | succ n ih =>
    intro c d h
    rw [lru.evictLoop] at h
    split at h
    · next hb =>
      rw [lru.evictLoop, if_pos hb]
      exact ih h
    · next hb => cases h; simp [lru.evictLoop, hb]

theorem evictLoop_mono {n m : Nat} {c d : Cache V} (hnm : n ≤ m)
    (h : evictLoop n c = some d) : evictLoop m c = some d := by
  induction m with
  | zero =>
    have : n = 0 := by omega
    subst this; exact h
  | succ m ih =>
    rcases Nat.lt_or_ge n (m + 1) with hlt | hge
    · exact evictLoop_mono_succ (ih (by omega))
    · have : n = m + 1 := by omega
      subst this; exact h

/-- The result of the loop does not depend on the fuel that let it exit. -/
theorem evictLoop_unique {n m : Nat} {c d1 d2 : Cache V}
    (h1 : evictLoop n c = some d1) (h2 : evictLoop m c = some d2) : d1 = d2 := by
  have a := evictLoop_mono (Nat.le_max_left n m) h1
  have b := evictLoop_mono (Nat.le_max_right n m) h2
  rw [a] at b
  exact Option.some.inj b

theorem insertOrUpdate_frame (c : Cache V) (key : String) (value : V) :
    (insertOrUpdate c key value).maxBytes = c.maxBytes ∧
    (insertOrUpdate c key value).OnEvicted = c.OnEvicted ∧
    (insertOrUpdate c key value).calls = c.calls := by
  unfold lru.insertOrUpdate
  split
  · split <;> simp
  · simp

/-- The list right after the insert/update step of `Add(key, value)`: a node
holding `(key, value)` at the front, followed by the other nodes in their
previous order. -/
theorem insertOrUpdate_ll {c : Cache V} (hc : Inv c) (key : String) (value : V) :
    ∃ a l1 l2, (insertOrUpdate c key value).ll = ⟨a, ⟨key, value⟩⟩ :: (l1 ++ l2) ∧
      ((mapLookup c.cache key = none ∧ c.ll = l1 ++ l2 ∧ a = c.next) ∨
       (mapLookup c.cache key = some a ∧
         ∃ e, c.ll = l1 ++ e :: l2 ∧ e.addr = a ∧ e.Value.key = key)) := by
  cases h : mapLookup c.cache key with
  | none =>
    refine ⟨c.next, [], c.ll, ?_, Or.inl ⟨rfl, rfl, rfl⟩⟩
    rw [insertOrUpdate_new value h]; rfl
  | some a =>
    obtain ⟨e, l1, l2, hl, hea, hek, heq⟩ := insertOrUpdate_hit hc value h
    refine ⟨a, l1, l2, ?_, Or.inr ⟨rfl, e, hl, hea, hek⟩⟩
    rw [heq]

theorem insertOrUpdate_length {c : Cache V} (hc : Inv c) (key : String) (value : V) :
    (insertOrUpdate c key value).ll.length ≤ c.ll.length + 1 := by
  obtain ⟨a, l1, l2, hl, h | ⟨_, e, he, _⟩⟩ := insertOrUpdate_ll hc key value
  · rw [hl, h.2.1]; simp
  · rw [hl, he]; simp

/-- With a non-negative budget the loop of `Add` exits, after at most as many
removals as the list has entries. -/
theorem Add_terminates {c : Cache V} (hc : Inv c) (hB : 0 ≤ c.maxBytes)
    (key : String) (value : V) :
    ∃ d, Add (c.ll.length + 1) c key value = some d := by
  have hm := hc.insertOrUpdate key value
  have hf := insertOrUpdate_frame c key value
  have hstop : (insertOrUpdate c key value).maxBytes = 0 ∨
      wrap64 ((([] : List (Element V)).map (fun e => rawBytes e.Value)).sum) ≤
        (insertOrUpdate c key value).maxBytes := by
    right
    rw [hf.1]
    simpa [wrap64_zero] using hB
  have hnil : (insertOrUpdate c key value).ll = [] ++ (insertOrUpdate c key value).ll := by simp
  obtain ⟨d, hd⟩ := evictLoop_terminates hm hnil hstop
  exact ⟨d, evictLoop_mono (insertOrUpdate_length hc key value) hd⟩

end Loop


/-! ## Stored values and callback records -/

section Records

variable {V : Type} [Value V]

/-- The value stored under a key: the map pointer dereferenced, as `Get`
reads it, without the move to the front. -/
def lookupValue (c : Cache V) (key : String) : Option V :=
  match mapLookup c.cache key with
  | some a =>
    match elementAt c.ll a with
    | some ele => some ele.Value.value
    | none => none
  | none => none

omit [Value V] in
/-- The result of `Get` is the stored value, with `ok` telling whether there
is one. -/
theorem Get_fst (c : Cache V) (key : String) :
    (Get c key).1 = (lookupValue c key, (lookupValue c key).isSome) := by
  cases h : mapLookup c.cache key with
  | none => rw [Get_miss h]; simp [lookupValue, h]
  | some a =>
    cases h2 : elementAt c.ll a with
    | none => rw [Get_dangling h h2]; simp [lookupValue, h, h2]
    | some e => rw [Get_hit h h2]; simp [lookupValue, h, h2]

theorem lookupValue_eq_some {c : Cache V} (hc : Inv c) {key : String} {v : V} :
    lookupValue c key = some v ↔ ∃ e ∈ c.ll, e.Value.key = key ∧ e.Value.value = v := by
  unfold lookupValue
  constructor
  · intro h
    cases hk : mapLookup c.cache key with
    | none => simp [hk] at h
    | some a =>
      obtain ⟨e, he, hek, _⟩ := hc.deref hk
      simp only [hk, he, Option.some.injEq] at h
      exact ⟨e, (elementAt_mem he).1, hek, h⟩
  · rintro ⟨e, he, hek, hev⟩
    have h1 := hc.lookup_of_mem he
    have h2 := elementAt_of_mem hc.addrs he
    rw [hek] at h1
    simp only [h1, h2, hev]

theorem lookupValue_eq_none {c : Cache V} (hc : Inv c) {key : String} :
    lookupValue c key = none ↔ ∀ e ∈ c.ll, e.Value.key ≠ key := by
  constructor
  · intro h e he hek
    have : lookupValue c key = some e.Value.value :=
      (lookupValue_eq_some hc).2 ⟨e, he, hek, rfl⟩
    rw [h] at this
    cases this
  · intro h
    have hk := hc.lookup_none.2 h
    simp [lookupValue, hk]

omit [Value V] in
/-- Moving to the front a node that is already there changes nothing. -/
theorem MoveToFront_front {e : Element V} {rest : List (Element V)}
    (hrest : ∀ x ∈ rest, x.addr ≠ e.addr) :
    MoveToFront (e :: rest) e.addr = e :: rest := by
  have h1 : elementAt (e :: rest) e.addr = some e := by
    unfold elementAt
    exact List.find?_cons_of_pos _ (by simp)
  have h2 : Remove (e :: rest) e.addr = rest := by
    have : Remove (e :: rest) e.addr = Remove rest e.addr := by simp [Remove]
    rw [this, Remove_eq_self hrest]
  simp only [MoveToFront, h1, h2]

/-- The cache contents recorded with a callback invocation are consistent
(unique nodes and keys, map and list in agreement, `nbytes` the sum of the
contributions reduced to `int64`) and no longer hold the evicted key. -/
structure SnapshotOK (r : Call V) : Prop where
  addrs : (r.ll.map Element.addr).Nodup
  keys : (r.ll.map (fun e => e.Value.key)).Nodup
  mapKeys : (r.cache.map Prod.fst).Nodup
  agree : ∀ k a, (k, a) ∈ r.cache ↔ ∃ e ∈ r.ll, e.addr = a ∧ e.Value.key = k
  acct : r.nbytes = wrap64 ((r.ll.map (fun e => rawBytes e.Value)).sum)
  absentMap : mapLookup r.cache r.key = none
  absentList : ∀ e ∈ r.ll, e.Value.key ≠ r.key

/-- The record `RemoveOldest` hands to the callback when the list ends with
`e`: the pair of `e` and the cache as it is after the removal. -/
def evictionRecord (c : Cache V) (init : List (Element V)) (e : Element V) : Call V :=
  ⟨e.Value.key, e.Value.value, init, mapDelete c.cache e.Value.key,
    wrap64 (c.nbytes - entryBytes e.Value)⟩

theorem RemoveOldest_calls {c : Cache V} (hc : Inv c) {init : List (Element V)}
    {e : Element V} (h : c.ll = init ++ [e]) :
    (RemoveOldest c).calls =
      if c.OnEvicted then c.calls ++ [evictionRecord c init e] else c.calls := by
  rw [RemoveOldest_back hc h]
  rfl

theorem evictionRecord_ok {c : Cache V} (hc : Inv c) {init : List (Element V)}
    {e : Element V} (h : c.ll = init ++ [e]) : SnapshotOK (evictionRecord c init e) := by
  have hi := hc.removeBack h c.calls
  have hk := hc.keys
  rw [h] at hk
  simp only [List.map_append, List.map_cons, List.map_nil] at hk
  refine ⟨hi.addrs, hi.keys, hi.mapKeys, hi.agree, hi.acct, mapLookup_mapDelete_self _ _, ?_⟩
  intro x hx hxe
  exact (List.nodup_append.1 hk).2.2 (List.mem_map_of_mem (fun e => e.Value.key) hx)
    (by simp [evictionRecord] at hxe; simp [hxe])

/-- The records appended by removing the back segment `gone`: one per entry
removed when the callback is configured, none otherwise, each carrying the
pair of its entry and a consistent snapshot, oldest entry first. -/
theorem iterate_RemoveOldest_calls {gone : List (Element V)} :
    ∀ {c : Cache V} {keep : List (Element V)}, Inv c → c.ll = keep ++ gone →
      ∃ recs, (RemoveOldest^[gone.length] c).calls = c.calls ++ recs ∧
        recs.map callPair =
          (if c.OnEvicted then gone.reverse.map elementPair else []) ∧
        ∀ r ∈ recs, SnapshotOK r := by
  induction gone using List.reverseRecOn with
  | nil =>
    intro c keep hc hl
    refine ⟨[], by simp, ?_, by simp⟩
    cases c.OnEvicted <;> simp
  | append_singleton g e ih =>
    intro c keep hc hl
    have hl2 : c.ll = (keep ++ g) ++ [e] := by rw [hl, List.append_assoc]
    have hR := RemoveOldest_back hc hl2
    have hcalls := RemoveOldest_calls hc hl2
    have hrec := evictionRecord_ok hc hl2
    have hlen : (g ++ [e]).length = g.length + 1 := by simp
    have hRll : (RemoveOldest c).ll = keep ++ g := by rw [hR]
    have hOn : (RemoveOldest c).OnEvicted = c.OnEvicted := by rw [hR]
    obtain ⟨recs, h1, h2, h3⟩ := ih hc.RemoveOldest hRll
    rw [hlen, Function.iterate_succ_apply, h1, hcalls]
    rw [hOn] at h2
    cases hcb : c.OnEvicted
    · refine ⟨recs, by simp, ?_, h3⟩
      rw [h2, hcb]; simp
    · refine ⟨evictionRecord c (keep ++ g) e :: recs, by simp, ?_, ?_⟩
      · rw [hcb] at h2
        simp only [List.map_cons, h2, if_true, List.reverse_append, List.reverse_cons,
          List.reverse_nil, List.nil_append, List.singleton_append]
        simp [callPair, elementPair, evictionRecord]
      · intro r hr
        rcases List.mem_cons.1 hr with rfl | hr
        · exact hrec
        · exact h3 r hr

/-- What a returning `Add` has done after its insert/update step: it removed
the back segment `gone`, appended the records `recs` to the callback log, and
left a consistent cache on which the guard of the loop fails. -/
theorem Add_spec {fuel : Nat} {c d : Cache V} {key : String} {value : V} (hc : Inv c)
    (h : Add fuel c key value = some d) :
    ∃ gone recs, (insertOrUpdate c key value).ll = d.ll ++ gone ∧
      d = RemoveOldest^[gone.length] (insertOrUpdate c key value) ∧
      d.calls = c.calls ++ recs ∧
      recs.map callPair = (if c.OnEvicted then gone.reverse.map elementPair else []) ∧
      (∀ r ∈ recs, SnapshotOK r) ∧
      overBudget d = false ∧
      (∀ i, i < gone.length →
        overBudget (RemoveOldest^[i] (insertOrUpdate c key value)) = true) ∧
      Inv d ∧ d.maxBytes = c.maxBytes ∧ d.OnEvicted = c.OnEvicted ∧
      d.nbytes = wrap64 ((insertOrUpdate c key value).nbytes -
        (gone.map (fun e => rawBytes e.Value)).sum) := by
  have hm := hc.insertOrUpdate key value
  have hf := insertOrUpdate_frame c key value
  obtain ⟨gone, hl, hd, hdb, hi⟩ := evictLoop_spec hm h
  obtain ⟨recs, h1, h2, h3⟩ := iterate_RemoveOldest_calls hm hl
  obtain ⟨_, g2, g3, _, g5, g6, _⟩ := iterate_RemoveOldest hm hl
  rw [← hd] at h1 g2 g3 g5 g6
  rw [hf.2.1] at h2 g3
  rw [hf.2.2] at h1
  rw [hf.1] at g2
  exact ⟨gone, recs, hl, hd, h1, h2, h3, hdb, hi, g6, g2, g3, g5⟩

omit [Value V] in
theorem sum_rawBytes_nonneg [Value V] {l : List (Element V)}
    (h : ∀ e ∈ l, 0 ≤ Value.Len e.Value.value) :
    0 ≤ (l.map (fun e => rawBytes e.Value)).sum := by
  apply List.sum_nonneg
  intro x hx
  obtain ⟨e, he, rfl⟩ := List.mem_map.1 hx
  have := h e he
  unfold rawBytes
  omega

/-- The value stored under each key after the insert/update step of
`Add(key, value)`: `value` under `key`, the previous one under any other key. -/
theorem lookupValue_insertOrUpdate {c : Cache V} (hc : Inv c) (key : String) (value : V)
    (k : String) :
    lookupValue (insertOrUpdate c key value) k =
      if k = key then some value else lookupValue c k := by
  have hm := hc.insertOrUpdate key value
  obtain ⟨a, l1, l2, hll, hcase⟩ := insertOrUpdate_ll hc key value
  by_cases hk : k = key
  · rw [if_pos hk, lookupValue_eq_some hm, hll]
    exact ⟨⟨a, ⟨key, value⟩⟩, List.mem_cons_self _ _, hk.symm, rfl⟩
  · rw [if_neg hk]
    have hiff : ∀ x : Element V, x.Value.key = k →
        (x ∈ (insertOrUpdate c key value).ll ↔ x ∈ c.ll) := by
      intro x hxk
      have hxne : x ≠ ⟨a, ⟨key, value⟩⟩ := by
        rintro rfl
        exact hk hxk.symm
      rw [hll]
      rcases hcase with ⟨_, hcl, _⟩ | ⟨_, e, hcl, _, hek⟩
      · rw [hcl]; simp [hxne]
      · have hxe : x ≠ e := by
          rintro rfl
          exact hk (hxk.symm.trans hek)
        rw [hcl]; simp [hxne, hxe]
    apply Option.ext
    intro w
    rw [Option.mem_def, Option.mem_def, lookupValue_eq_some hm, lookupValue_eq_some hc]
    constructor
    · rintro ⟨x, hx, hxk, hxv⟩
      exact ⟨x, (hiff x hxk).1 hx, hxk, hxv⟩
    · rintro ⟨x, hx, hxk, hxv⟩
      exact ⟨x, (hiff x hxk).2 hx, hxk, hxv⟩

omit [Value V] in
/-- A call of `Get` does not change the value stored under any key. -/
theorem lookupValue_Get (c : Cache V) (key k : String) :
    lookupValue (Get c key).2 k = lookupValue c k := by
  cases hk : mapLookup c.cache key with
  | none => rw [Get_miss hk]
  | some a =>
    cases he : elementAt c.ll a with
    | none => rw [Get_dangling hk he]
    | some e =>
      rw [Get_hit hk he]
      unfold lookupValue
      simp only [elementAt_MoveToFront]

/-- Without a budget (`maxBytes == 0`) the guard of the loop fails at once:
`Add` is its insert/update step, whatever the fuel. -/
theorem Add_unbounded {c : Cache V} (h0 : c.maxBytes = 0) (fuel : Nat) (key : String)
    (value : V) : Add fuel c key value = some (insertOrUpdate c key value) := by
  have hb : overBudget (insertOrUpdate c key value) = false := by
    rw [Bool.eq_false_iff, Ne, overBudget_iff, (insertOrUpdate_frame c key value).1]
    exact fun h => h.1 h0
  unfold Add
  cases fuel <;> simp [lru.evictLoop, hb]

/-- When there is no budget or the pair fits it, the entry just written stays
at the front of the list through the loop of `Add`. -/
theorem Add_keeps_front {fuel : Nat} {c d : Cache V} {key : String} {value : V}
    (hc : Inv c)
    (hfit : c.maxBytes = 0 ∨ (key.utf8ByteSize : Int) + Value.Len value ≤ c.maxBytes)
    (h : Add fuel c key value = some d) :
    ∃ a rest gone, d.ll = ⟨a, ⟨key, value⟩⟩ :: rest ∧
      (insertOrUpdate c key value).ll = ⟨a, ⟨key, value⟩⟩ :: (rest ++ gone) := by
  have hm := hc.insertOrUpdate key value
  have hf := insertOrUpdate_frame c key value
  obtain ⟨a, l1, l2, hll, _⟩ := insertOrUpdate_ll hc key value
  have hsplit : (insertOrUpdate c key value).ll = [⟨a, ⟨key, value⟩⟩] ++ (l1 ++ l2) := by
    rw [hll]; rfl
  obtain ⟨h1, h2, _, _, _, h6, _⟩ := iterate_RemoveOldest hm hsplit
  have hone : (RemoveOldest^[(l1 ++ l2).length] (insertOrUpdate c key value)).nbytes =
      wrap64 ((key.utf8ByteSize : Int) + Value.Len value) := by
    rw [h6.acct, h1]; simp [rawBytes]
  obtain ⟨gone, hl, _, _, hover⟩ := evictLoop_spec hm h
  cases hdl : d.ll with
  | nil =>
    exfalso
    rw [hdl, List.nil_append, hll] at hl
    have hgl : gone.length = (l1 ++ l2).length + 1 := by rw [← hl]; simp
    have hb := hover (l1 ++ l2).length (by omega)
    rw [overBudget_iff, h2, hone, hf.1] at hb
    rcases hfit with h0 | hle
    · exact hb.1 h0
    · have hlo := (Value.Len_int value).1
      have := wrap64_le_of_le (by omega) hle
      omega
  | cons x rest =>
    rw [hdl, hll, List.cons_append] at hl
    injection hl with hx hrest
    refine ⟨a, rest, gone, by rw [hx], ?_⟩
    rw [hll, hrest]

/-- With non-negative stored sizes, the contributions after the insert/update
step of `Add(key, value)` total at most the previous total plus the
contribution of `(key, value)`. -/
theorem insertOrUpdate_sum_le {c : Cache V} (hc : Inv c)
    (hnn : ∀ e ∈ c.ll, 0 ≤ Value.Len e.Value.value) (key : String) (value : V) :
    ((insertOrUpdate c key value).ll.map (fun e => rawBytes e.Value)).sum ≤
      (c.ll.map (fun e => rawBytes e.Value)).sum +
        ((key.utf8ByteSize : Int) + Value.Len value) := by
  obtain ⟨a, l1, l2, hll, hcase⟩ := insertOrUpdate_ll hc key value
  rw [hll]
  rcases hcase with ⟨_, hcl, _⟩ | ⟨_, e, hcl, _, _⟩
  · rw [hcl]
    simp only [List.map_cons, List.sum_cons, rawBytes]
    omega
  · have he := hnn e (by rw [hcl]; simp)
    rw [hcl]
    simp only [List.map_cons, List.sum_cons, List.map_append, List.sum_append, rawBytes]
    omega

/-- Non-negative sizes stay non-negative through the insert/update step of an
`Add` of a value of non-negative size. -/
theorem insertOrUpdate_nonneg {c : Cache V} (hc : Inv c)
    (hnn : ∀ e ∈ c.ll, 0 ≤ Value.Len e.Value.value) (key : String) {value : V}
    (hv : 0 ≤ Value.Len value) :
    ∀ x ∈ (insertOrUpdate c key value).ll, 0 ≤ Value.Len x.Value.value := by
  obtain ⟨a, l1, l2, hll, hcase⟩ := insertOrUpdate_ll hc key value
  intro x hx
  rw [hll] at hx
  rcases List.mem_cons.1 hx with rfl | hx
  · exact hv
  · apply hnn
    rcases hcase with ⟨_, hcl, _⟩ | ⟨_, e, hcl, _, _⟩
    · rw [hcl]; exact hx
    · rw [hcl]
      rcases List.mem_append.1 hx with hx | hx
      · exact List.mem_append_left _ hx
      · exact List.mem_append_right _ (List.mem_cons_of_mem _ hx)

/-- A consistent cache with a negative budget whose values all have a
non-negative size, the contributions totalling less than `2^63`: the guard of
the loop of `Add` holds on it for ever. -/
structure NegBudget (s : Cache V) : Prop where
  inv : Inv s
  neg : s.maxBytes < 0
  nonneg : ∀ e ∈ s.ll, 0 ≤ Value.Len e.Value.value
  fits : (s.ll.map (fun e => rawBytes e.Value)).sum < 9223372036854775808

theorem NegBudget.guard {s : Cache V} (h : NegBudget s) : lru.overBudget s = true := by
  rw [overBudget_iff]
  have hsum := sum_rawBytes_nonneg h.nonneg
  have hacct := h.inv.acct
  rw [wrap64_eq_self (by omega) h.fits] at hacct
  have hneg := h.neg
  constructor
  · omega
  · omega

theorem NegBudget.afterRemoveOldest {s : Cache V} (h : NegBudget s) :
    NegBudget (lru.RemoveOldest s) := by
  cases hb : Back s.ll with
  | none =>
    have hem : s.ll = [] := by simpa [Back] using hb
    rw [RemoveOldest_empty hem]; exact h
  | some e =>
    have hsplit := Back_split hb
    have hR := RemoveOldest_back h.inv hsplit
    refine ⟨h.inv.RemoveOldest, ?_, ?_, ?_⟩
    · rw [hR]; exact h.neg
    · intro x hx
      rw [hR] at hx
      exact h.nonneg x (by rw [hsplit]; exact List.mem_append_left _ hx)
    · have hfits := h.fits
      have he := h.nonneg e (by rw [hsplit]; simp)
      have hre : 0 ≤ rawBytes e.Value := by unfold rawBytes; omega
      rw [hsplit] at hfits
      simp only [List.map_append, List.sum_append, List.map_cons, List.map_nil,
        List.sum_cons, List.sum_nil] at hfits
      rw [hR]
      show (s.ll.dropLast.map (fun e => rawBytes e.Value)).sum < _
      omega

theorem NegBudget.iterate {s : Cache V} (h : NegBudget s) (i : Nat) :
    NegBudget (lru.RemoveOldest^[i] s) := by
  induction i generalizing s with
  | zero => exact h
  | succ n ih =>
    rw [Function.iterate_succ_apply]
    exact ih h.afterRemoveOldest

/-- With a negative budget, non-negative sizes and no overflow the loop of
`Add` never exits, whatever the fuel. -/
theorem NegBudget.loopNone {s : Cache V} (h : NegBudget s) (fuel : Nat) :
    lru.evictLoop fuel s = none := by
  induction fuel generalizing s with
  | zero => simp [lru.evictLoop, h.guard]
  | succ n ih =>
    rw [lru.evictLoop, if_pos h.guard]
    exact ih h.afterRemoveOldest

theorem NegBudget.afterInsert {c : Cache V} (hc : Inv c) (hB : c.maxBytes < 0)
    (hnn : ∀ e ∈ c.ll, 0 ≤ Value.Len e.Value.value) (key : String) {value : V}
    (hv : 0 ≤ Value.Len value)
    (hfits : (c.ll.map (fun e => rawBytes e.Value)).sum +
      ((key.utf8ByteSize : Int) + Value.Len value) < 9223372036854775808) :
    NegBudget (lru.insertOrUpdate c key value) := by
  refine ⟨hc.insertOrUpdate key value, ?_, ?_, ?_⟩
  · rw [(insertOrUpdate_frame c key value).1]; exact hB
  · obtain ⟨a, l1, l2, hll, hcase⟩ := insertOrUpdate_ll hc key value
    intro x hx
    rw [hll] at hx
    rcases List.mem_cons.1 hx with rfl | hx
    · exact hv
    · apply hnn
      rcases hcase with ⟨_, hcl, _⟩ | ⟨_, e, hcl, _, _⟩
      · rw [hcl]; exact hx
      · rw [hcl]
        rcases List.mem_append.1 hx with hx | hx
        · exact List.mem_append_left _ hx
        · exact List.mem_append_right _ (List.mem_cons_of_mem _ hx)
  · have := insertOrUpdate_sum_le hc hnn key value
    omega

/-- Every record of the callback log of a reachable cache carries a
consistent snapshot without the evicted key. -/
theorem Reachable.calls_ok {c : Cache V} (h : Reachable c) :
    ∀ r ∈ c.calls, SnapshotOK r := by
  induction h with
  | new maxBytes onEvicted => intro r hr; simp [lru.New] at hr
  | get c key hc ih =>
    cases hk : mapLookup c.cache key with
    | none => rw [Get_miss hk]; exact ih
    | some a =>
      cases he : elementAt c.ll a with
      | none => rw [Get_dangling hk he]; exact ih
      | some e => rw [Get_hit hk he]; exact ih
  | add c key value fuel d hc hd ih =>
    obtain ⟨_, recs, _, _, hcalls, _, hok, _⟩ := Add_spec hc.inv hd
    intro r hr
    rw [hcalls] at hr
    rcases List.mem_append.1 hr with hr | hr
    · exact ih r hr
    · exact hok r hr
  | removeOldest c hc ih =>
    cases hb : Back c.ll with
    | none =>
      have hem : c.ll = [] := by simpa [Back] using hb
      rw [RemoveOldest_empty hem]; exact ih
    | some e =>
      have hsplit := Back_split hb
      intro r hr
      rw [RemoveOldest_calls hc.inv hsplit] at hr
      cases hcb : c.OnEvicted
      · rw [hcb] at hr; exact ih r hr
      · rw [hcb, if_pos rfl] at hr
        rcases List.mem_append.1 hr with hr | hr
        · exact ih r hr
        · rw [List.mem_singleton.1 hr]
          exact evictionRecord_ok hc.inv hsplit

end Records





/-! ## Concrete caches -/

section Samples

/-- A value of size 0, so that a pair with a one-byte key costs 1. -/
def v0 : Sized := ⟨"v", 0⟩

/-- The cache after `Add("a")` on `New(2, onEvicted)`. -/
def cacheA : Cache Sized :=
  { maxBytes := 2, nbytes := 1, ll := [⟨0, ⟨"a", v0⟩⟩], cache := [("a", 0)],
    OnEvicted := true, calls := [], next := 1 }

/-- The cache after `Add("a")`, `Add("b")` on `New(2, onEvicted)`. -/
def cacheAB : Cache Sized :=
  { maxBytes := 2, nbytes := 2, ll := [⟨1, ⟨"b", v0⟩⟩, ⟨0, ⟨"a", v0⟩⟩],
    cache := [("b", 1), ("a", 0)], OnEvicted := true, calls := [], next := 2 }

/-- The cache after `Add("a")`, `Add("b")`, `Add("c")` on `New(2, onEvicted)`:
"a" has been evicted, the callback having seen the list `[c, b]`. -/
def cacheBC : Cache Sized :=
  { maxBytes := 2, nbytes := 2, ll := [⟨2, ⟨"c", v0⟩⟩, ⟨1, ⟨"b", v0⟩⟩],
    cache := [("c", 2), ("b", 1)], OnEvicted := true,
    calls := [⟨"a", v0, [⟨2, ⟨"c", v0⟩⟩, ⟨1, ⟨"b", v0⟩⟩], [("c", 2), ("b", 1)], 2⟩],
    next := 3 }

/-- A value of size 5, too large for a budget of 2. -/
def v5 : Sized := ⟨"w", 5⟩

/-- The unbounded cache after `Add("a", v0)`, `Add("a", v5)`, `Get("a")` on
`New(0, onEvicted)`. -/
def cacheU : Cache Sized :=
  { maxBytes := 0, nbytes := 6, ll := [⟨0, ⟨"a", v5⟩⟩], cache := [("a", 0)],
    OnEvicted := true, calls := [], next := 1 }

/-- A value of negative size, -10. -/
def vNeg : Sized := ⟨"n", -10⟩

/-- A value of size 1. -/
def vOne : Sized := ⟨"x", 1⟩

/-- A value whose `Len()` is the largest `int64`, `2^63 - 1`. -/
def vMax : Sized := ⟨"m", 9223372036854775807⟩

/-- The cache after `Add("a", vMax)` on `New(0, nil)`: `nbytes` has wrapped
from `2^63` to `-2^63`. -/
def cacheMax : Cache Sized :=
  { maxBytes := 0, nbytes := -9223372036854775808, ll := [⟨0, ⟨"a", vMax⟩⟩],
    cache := [("a", 0)], OnEvicted := false, calls := [], next := 1 }

theorem cacheA_reachable : Reachable cacheA :=
  Reachable.add (New 2 true) "a" v0 1 cacheA (Reachable.new 2 true) (by decide)

theorem cacheAB_reachable : Reachable cacheAB :=
  Reachable.add cacheA "b" v0 1 cacheAB cacheA_reachable (by decide)

/-- The cache after `Add("b", v0)`, `Add("a", vMax)` on `New(0, onEvicted)`:
`nbytes` has wrapped from `2^63 + 1` to `-2^63 + 1`. -/
def cacheBMax : Cache Sized :=
  { maxBytes := 0, nbytes := -9223372036854775807,
    ll := [⟨1, ⟨"a", vMax⟩⟩, ⟨0, ⟨"b", v0⟩⟩], cache := [("a", 1), ("b", 0)],
    OnEvicted := true, calls := [], next := 2 }

theorem cacheBMax_reachable : Reachable cacheBMax :=
  Reachable.add ⟨0, 1, [⟨0, ⟨"b", v0⟩⟩], [("b", 0)], true, [], 1⟩ "a" vMax 0 cacheBMax
    (Reachable.add (New 0 true) "b" v0 0 _ (Reachable.new 0 true) (by decide)) (by decide)

theorem cacheMax_reachable : Reachable cacheMax :=
  Reachable.add (New 0 false) "a" vMax 0 cacheMax (Reachable.new 0 false) (by decide)

end Samples

/-! ## The claims -/

section Claims

variable {V : Type} [Value V]

/-- C1, as stated, fails when the sum leaves the range of `int64`: after
`Add("a", v)` with `v.Len() = 2^63 - 1` on `New(0, nil)` the list holds one
entry of contribution `2^63`, while `nbytes` has wrapped to `-2^63`. -/
theorem C1_counterexample :
    Reachable cacheMax ∧
    cacheMax.nbytes ≠
      (cacheMax.ll.map
        (fun e => (e.Value.key.utf8ByteSize : Int) + Value.Len e.Value.value)).sum :=
  ⟨cacheMax_reachable, by decide⟩

/-- C1, amended (accounting invariant in `int64`): in every cache reachable
from `New` by calls of `Get`, `Add` and `RemoveOldest`, `nbytes` is the sum
over the entries of the list of `len(key) + value.Len()` reduced to `int64` by
wrap-around; it is that sum itself whenever the sum lies in the range of
`int64`. -/
theorem C1_accounting (c : Cache V) (h : Reachable c) :
    c.nbytes =
      wrap64 ((c.ll.map
        (fun e => (e.Value.key.utf8ByteSize : Int) + Value.Len e.Value.value)).sum) ∧
    (-9223372036854775808 ≤
        (c.ll.map
          (fun e => (e.Value.key.utf8ByteSize : Int) + Value.Len e.Value.value)).sum →
      (c.ll.map
          (fun e => (e.Value.key.utf8ByteSize : Int) + Value.Len e.Value.value)).sum <
        9223372036854775808 →
      c.nbytes =
        (c.ll.map
          (fun e => (e.Value.key.utf8ByteSize : Int) + Value.Len e.Value.value)).sum) := by
  have hacct : c.nbytes = wrap64 ((c.ll.map
      (fun e => (e.Value.key.utf8ByteSize : Int) + Value.Len e.Value.value)).sum) :=
    h.inv.acct
  refine ⟨hacct, fun h1 h2 => ?_⟩
  rw [hacct, wrap64_eq_self h1 h2]

theorem C1_accounting_witness :
    Reachable cacheAB ∧
    (cacheAB.nbytes =
      wrap64 ((cacheAB.ll.map
        (fun e => (e.Value.key.utf8ByteSize : Int) + Value.Len e.Value.value)).sum) ∧
    (-9223372036854775808 ≤
        (cacheAB.ll.map
          (fun e => (e.Value.key.utf8ByteSize : Int) + Value.Len e.Value.value)).sum →
      (cacheAB.ll.map
          (fun e => (e.Value.key.utf8ByteSize : Int) + Value.Len e.Value.value)).sum <
        9223372036854775808 →
      cacheAB.nbytes =
        (cacheAB.ll.map
          (fun e => (e.Value.key.utf8ByteSize : Int) + Value.Len e.Value.value)).sum)) :=
  ⟨cacheAB_reachable, C1_accounting cacheAB cacheAB_reachable⟩

omit [Value V] in
theorem keys_perm {c : Cache V} (hk : (c.ll.map (fun e => e.Value.key)).Nodup)
    (hm : (c.cache.map Prod.fst).Nodup)
    (hag : ∀ k a, (k, a) ∈ c.cache ↔ ∃ e ∈ c.ll, e.addr = a ∧ e.Value.key = k) :
    (c.cache.map Prod.fst).Perm (c.ll.map (fun e => e.Value.key)) := by
  rw [List.perm_ext_iff_of_nodup hm hk]
  intro k
  simp only [List.mem_map, Prod.exists, exists_and_right, exists_eq_right]
  constructor
  · rintro ⟨a, ha⟩
    obtain ⟨e, he, _, hek⟩ := (hag k a).1 ha
    exact ⟨e, he, hek⟩
  · rintro ⟨e, he, hek⟩
    exact ⟨e.addr, (hag k e.addr).2 ⟨e, he, rfl, hek⟩⟩

/-- C2 (index/order agreement): in every reachable cache a key is in the map
iff exactly one list entry carries it, the pointer stored for a key is the
node of that entry, no two list entries share a key (nor a node), the map has
each key once, and `Len()` is the number of keys of the map. -/
theorem C2_index_order_agreement (c : Cache V) (h : Reachable c) :
    (∀ k, (∃ a, mapLookup c.cache k = some a) ↔
        (c.ll.map (fun e => e.Value.key)).count k = 1) ∧
    (∀ k a, mapLookup c.cache k = some a ↔
        ∃ e, e ∈ c.ll ∧ elementAt c.ll a = some e ∧ e.addr = a ∧ e.Value.key = k) ∧
    (c.ll.map (fun e => e.Value.key)).Nodup ∧
    (c.ll.map Element.addr).Nodup ∧
    (c.cache.map Prod.fst).Nodup ∧
    Len c = ((c.cache.map Prod.fst).toFinset.card : Int) := by
  have hc := h.inv
  refine ⟨?_, ?_, hc.keys, hc.addrs, hc.mapKeys, ?_⟩
  · intro k
    constructor
    · rintro ⟨a, ha⟩
      obtain ⟨e, he, hek, _⟩ := hc.deref ha
      have hmem : k ∈ c.ll.map (fun e => e.Value.key) :=
        List.mem_map.2 ⟨e, (elementAt_mem he).1, hek⟩
      exact List.count_eq_one_of_mem hc.keys hmem
    · intro hcount
      have hmem : k ∈ c.ll.map (fun e => e.Value.key) :=
        List.count_pos_iff.1 (by omega)
      obtain ⟨e, he, hek⟩ := List.mem_map.1 hmem
      exact ⟨e.addr, hek ▸ hc.lookup_of_mem he⟩
  · intro k a
    constructor
    · intro ha
      obtain ⟨e, he, hek, hea⟩ := hc.deref ha
      exact ⟨e, (elementAt_mem he).1, he, hea, hek⟩
    · rintro ⟨e, he, _, hea, hek⟩
      rw [← hea, ← hek]
      exact hc.lookup_of_mem he
  · rw [List.toFinset_card_of_nodup hc.mapKeys]
    have := (keys_perm hc.keys hc.mapKeys hc.agree).length_eq
    simp only [List.length_map] at this
    simp [Len, this]

theorem C2_index_order_agreement_witness :
    Reachable cacheAB ∧
    ((∀ k, (∃ a, mapLookup cacheAB.cache k = some a) ↔
        (cacheAB.ll.map (fun e => e.Value.key)).count k = 1) ∧
    (∀ k a, mapLookup cacheAB.cache k = some a ↔
        ∃ e, e ∈ cacheAB.ll ∧ elementAt cacheAB.ll a = some e ∧ e.addr = a ∧
          e.Value.key = k) ∧
    (cacheAB.ll.map (fun e => e.Value.key)).Nodup ∧
    (cacheAB.ll.map Element.addr).Nodup ∧
    (cacheAB.cache.map Prod.fst).Nodup ∧
    Len cacheAB = ((cacheAB.cache.map Prod.fst).toFinset.card : Int)) :=
  ⟨cacheAB_reachable, C2_index_order_agreement cacheAB cacheAB_reachable⟩

/-- The caches obtained from `New(B, onEvicted)` by a sequence of `Add` calls
that returned. -/
inductive AddSeq (B : Int) (onEvicted : Bool) : Cache V → Prop
  | new : AddSeq B onEvicted (New B onEvicted)
  | add (c : Cache V) (key : String) (value : V) (fuel : Nat) (d : Cache V) :
      AddSeq B onEvicted c → Add fuel c key value = some d → AddSeq B onEvicted d

theorem AddSeq.reachable {B : Int} {onEvicted : Bool} {c : Cache V}
    (h : AddSeq B onEvicted c) : Reachable c := by
  induction h with
  | new => exact Reachable.new B onEvicted
  | add c key value fuel d _ hd ih => exact Reachable.add c key value fuel d ih hd

theorem Add_maxBytes {fuel : Nat} {c d : Cache V} {key : String} {value : V} (hc : Inv c)
    (h : Add fuel c key value = some d) : d.maxBytes = c.maxBytes := by
  obtain ⟨gone, hl, hd, _, _⟩ := evictLoop_spec (hc.insertOrUpdate key value) h
  rw [hd, (iterate_RemoveOldest (hc.insertOrUpdate key value) hl).2.1]
  exact (insertOrUpdate_frame c key value).1

theorem AddSeq.maxBytes {B : Int} {onEvicted : Bool} {c : Cache V}
    (h : AddSeq B onEvicted c) : c.maxBytes = B := by
  induction h with
  | new => rfl
  | add c key value fuel d hc hd ih => rw [Add_maxBytes hc.reachable.inv hd, ih]

/-- C3 (capacity invariant): for every budget `B > 0` and every cache obtained
from `New(B, _)` by a sequence of `Add` calls, a further `Add` returns (the
loop exits within `Len() + 1` iterations), and whenever `Add` returns,
`nbytes <= B` holds in the cache it leaves. -/
theorem C3_capacity (B : Int) (onEvicted : Bool) (hB : 0 < B) (c : Cache V)
    (hc : AddSeq B onEvicted c) (key : String) (value : V) :
    (∃ d, Add (c.ll.length + 1) c key value = some d) ∧
    ∀ fuel d, Add fuel c key value = some d → d.nbytes ≤ B := by
  have hinv := hc.reachable.inv
  have hmax := hc.maxBytes
  refine ⟨Add_terminates hinv (by omega) key value, ?_⟩
  intro fuel d hd
  obtain ⟨gone, _, _, hdb, _⟩ := evictLoop_spec (hinv.insertOrUpdate key value) hd
  have hdm := Add_maxBytes hinv hd
  rw [Bool.eq_false_iff, Ne, overBudget_iff] at hdb
  rw [hdm, hmax] at hdb
  have : ¬ (B < d.nbytes) := fun h => hdb ⟨by omega, h⟩
  omega

theorem C3_capacity_witness :
    (0 : Int) < 2 ∧ AddSeq 2 true cacheAB ∧
    ((∃ d, Add (cacheAB.ll.length + 1) cacheAB "c" v0 = some d) ∧
     ∀ fuel d, Add fuel cacheAB "c" v0 = some d → d.nbytes ≤ 2) :=
  have hAB : AddSeq 2 true cacheAB :=
    AddSeq.add cacheA "b" v0 1 cacheAB
      (AddSeq.add (New 2 true) "a" v0 1 cacheA AddSeq.new (by decide)) (by decide)
  ⟨by decide, hAB, C3_capacity 2 true (by decide) cacheAB hAB "c" v0⟩

/-- C4 (eviction is least-recently-used): for every reachable cache with
`maxBytes > 0` and every `Add(key, value)`, the call returns, and the list it
leaves is a front segment of the list as it stood right after the
insert/update step; the evicted entries `gone` are the complementary back
segment, removed by one `RemoveOldest` each, oldest first (after `i` removals
the `i` back-most entries are gone and all the others are still in place),
and the callback, when configured, is invoked for them in that order.
Scenario: with `maxBytes = 2` and values of size 0, `Add("a")`, `Add("b")`,
`Add("c")` on an empty cache evicts "a" only and leaves "c", "b". -/
theorem C4_eviction_lru (c : Cache V) (h : Reachable c) (hB : 0 < c.maxBytes)
    (key : String) (value : V) :
    (∃ d, Add (c.ll.length + 1) c key value = some d) ∧
    (∀ fuel d, Add fuel c key value = some d →
      ∃ gone, (insertOrUpdate c key value).ll = d.ll ++ gone ∧
        d = RemoveOldest^[gone.length] (insertOrUpdate c key value) ∧
        (∀ i, i ≤ gone.length →
          (RemoveOldest^[i] (insertOrUpdate c key value)).ll =
            d.ll ++ gone.take (gone.length - i)) ∧
        d.calls.map callPair =
          c.calls.map callPair ++
            (if c.OnEvicted then gone.reverse.map elementPair else [])) ∧
    (Add 1 (New 2 true) "a" v0 = some cacheA ∧
      Add 1 cacheA "b" v0 = some cacheAB ∧
      Add 1 cacheAB "c" v0 = some cacheBC ∧
      cacheBC.ll.map elementPair = [("c", v0), ("b", v0)] ∧
      cacheBC.calls.map callPair = [("a", v0)]) := by
  have hinv := h.inv
  have hm := hinv.insertOrUpdate key value
  have hf := insertOrUpdate_frame c key value
  refine ⟨Add_terminates hinv (by omega) key value, ?_, by decide⟩
  intro fuel d hd
  obtain ⟨gone, hl, hdeq, _, _⟩ := evictLoop_spec hm hd
  refine ⟨gone, hl, hdeq, ?_, ?_⟩
  · intro i hi
    have hsplit : (insertOrUpdate c key value).ll =
        (d.ll ++ gone.take (gone.length - i)) ++ gone.drop (gone.length - i) := by
      rw [List.append_assoc, List.take_append_drop]; exact hl
    have hlen : (gone.drop (gone.length - i)).length = i := by
      rw [List.length_drop]; omega
    have := (iterate_RemoveOldest hm hsplit).1
    rw [hlen] at this
    exact this
  · have := (iterate_RemoveOldest hm hl).2.2.2.2.2.2
    rw [← hdeq, hf.2.1, hf.2.2] at this
    exact this

theorem C4_eviction_lru_witness :
    Reachable cacheAB ∧ 0 < cacheAB.maxBytes ∧
    ((∃ d, Add (cacheAB.ll.length + 1) cacheAB "c" v0 = some d) ∧
    (∀ fuel d, Add fuel cacheAB "c" v0 = some d →
      ∃ gone, (insertOrUpdate cacheAB "c" v0).ll = d.ll ++ gone ∧
        d = RemoveOldest^[gone.length] (insertOrUpdate cacheAB "c" v0) ∧
        (∀ i, i ≤ gone.length →
          (RemoveOldest^[i] (insertOrUpdate cacheAB "c" v0)).ll =
            d.ll ++ gone.take (gone.length - i)) ∧
        d.calls.map callPair =
          cacheAB.calls.map callPair ++
            (if cacheAB.OnEvicted then gone.reverse.map elementPair else [])) ∧
    (Add 1 (New 2 true) "a" v0 = some cacheA ∧
      Add 1 cacheA "b" v0 = some cacheAB ∧
      Add 1 cacheAB "c" v0 = some cacheBC ∧
      cacheBC.ll.map elementPair = [("c", v0), ("b", v0)] ∧
      cacheBC.calls.map callPair = [("a", v0)])) :=
  ⟨cacheAB_reachable, by decide, C4_eviction_lru cacheAB cacheAB_reachable (by decide) "c" v0⟩

/-- C5 (Add/Get round trip): for every reachable cache and every `(key, value)`
with `maxBytes = 0` or `len(key) + value.Len() <= maxBytes`, `Add(key, value)`
returns, the entry `(key, value)` is then at the front of the list, and
`Get(key)` returns `(value, true)`, whether the key was new or present. -/
theorem C5_add_get_roundtrip (c : Cache V) (h : Reachable c) (key : String) (value : V)
    (hfit : c.maxBytes = 0 ∨ (key.utf8ByteSize : Int) + Value.Len value ≤ c.maxBytes) :
    (∃ d, Add (c.ll.length + 1) c key value = some d) ∧
    ∀ fuel d, Add fuel c key value = some d →
      (∃ a rest, d.ll = ⟨a, ⟨key, value⟩⟩ :: rest) ∧ (Get d key).1 = (some value, true) := by
  have hinv := h.inv
  have hm := hinv.insertOrUpdate key value
  have hf := insertOrUpdate_frame c key value
  constructor
  · obtain ⟨a, l1, l2, hll, _⟩ := insertOrUpdate_ll hinv key value
    have hlen := insertOrUpdate_length hinv key value
    have hsplit : (insertOrUpdate c key value).ll = [⟨a, ⟨key, value⟩⟩] ++ (l1 ++ l2) := by
      rw [hll]; rfl
    have hstop : (insertOrUpdate c key value).maxBytes = 0 ∨
        wrap64 ((([⟨a, ⟨key, value⟩⟩] : List (Element V)).map
          (fun e => rawBytes e.Value)).sum) ≤ (insertOrUpdate c key value).maxBytes := by
      rw [hf.1]
      rcases hfit with h0 | hle
      · exact Or.inl h0
      · right
        have hlo := (Value.Len_int value).1
        simp only [List.map_cons, List.map_nil, List.sum_cons, List.sum_nil, rawBytes,
          Int.add_zero]
        exact wrap64_le_of_le (by omega) hle
    obtain ⟨d, hd⟩ := evictLoop_terminates hm hsplit hstop
    refine ⟨d, evictLoop_mono ?_ hd⟩
    rw [hll] at hlen
    simp only [List.length_cons] at hlen
    omega
  · intro fuel d hd
    have hdinv := hinv.Add hd
    obtain ⟨a, rest, _, hrest, _⟩ := Add_keeps_front hinv hfit hd
    refine ⟨⟨a, rest, hrest⟩, ?_⟩
    have hmem : (⟨a, ⟨key, value⟩⟩ : Element V) ∈ d.ll := by rw [hrest]; simp
    rw [Get_hit (hdinv.lookup_of_mem hmem) (elementAt_of_mem hdinv.addrs hmem)]

theorem C5_add_get_roundtrip_witness :
    Reachable cacheAB ∧
    (cacheAB.maxBytes = 0 ∨ (("a".utf8ByteSize : Nat) : Int) + Value.Len v0 ≤ cacheAB.maxBytes) ∧
    ((∃ d, Add (cacheAB.ll.length + 1) cacheAB "a" v0 = some d) ∧
    ∀ fuel d, Add fuel cacheAB "a" v0 = some d →
      (∃ a rest, d.ll = ⟨a, ⟨"a", v0⟩⟩ :: rest) ∧ (Get d "a").1 = (some v0, true)) :=
  ⟨cacheAB_reachable, by decide,
    C5_add_get_roundtrip cacheAB cacheAB_reachable "a" v0 (by decide)⟩

/-- C6 (Get hit promotes): for every reachable cache and every key present in
it, `Get(key)` returns the value stored for the key with `ok = true`, and the
list becomes the entry of the key followed by all the other entries in their
previous relative order; nothing else changes. -/
theorem C6_get_hit (c : Cache V) (h : Reachable c) (key : String)
    (hp : contains c key = true) :
    ∃ e l1 l2, c.ll = l1 ++ e :: l2 ∧ e.Value.key = key ∧
      mapLookup c.cache key = some e.addr ∧
      Get c key = ((some e.Value.value, true), { c with ll := e :: (l1 ++ l2) }) := by
  have hinv := h.inv
  obtain ⟨a, ha⟩ := Option.isSome_iff_exists.1 hp
  obtain ⟨e, he, hek, hea⟩ := hinv.deref ha
  obtain ⟨_, l1, l2, hl, hm, _, _⟩ := MoveToFront_split hinv.addrs he
  refine ⟨e, l1, l2, hl, hek, by rw [hea]; exact ha, ?_⟩
  rw [Get_hit ha he, hm]

theorem C6_get_hit_witness :
    Reachable cacheAB ∧ contains cacheAB "a" = true ∧
    ∃ e l1 l2, cacheAB.ll = l1 ++ e :: l2 ∧ e.Value.key = "a" ∧
      mapLookup cacheAB.cache "a" = some e.addr ∧
      Get cacheAB "a" =
        ((some e.Value.value, true), { cacheAB with ll := e :: (l1 ++ l2) }) :=
  ⟨cacheAB_reachable, by decide, C6_get_hit cacheAB cacheAB_reachable "a" (by decide)⟩

/-- C7 (Get miss is side-effect free): for every reachable cache and every key
not present in it (absent from the map, or carried by no list entry),
`Get(key)` returns `(nil, false)` and the cache is exactly as before. -/
theorem C7_get_miss (c : Cache V) (h : Reachable c) (key : String)
    (hp : contains c key = false ∨ ∀ e ∈ c.ll, e.Value.key ≠ key) :
    Get c key = ((none, false), c) := by
  apply Get_miss
  rcases hp with hp | hp
  · simpa [contains] using hp
  · exact h.inv.lookup_none.2 hp

theorem C7_get_miss_witness :
    Reachable cacheAB ∧
    (contains cacheAB "z" = false ∨ ∀ e ∈ cacheAB.ll, e.Value.key ≠ "z") ∧
    Get cacheAB "z" = ((none, false), cacheAB) :=
  ⟨cacheAB_reachable, Or.inl (by decide),
    C7_get_miss cacheAB cacheAB_reachable "z" (Or.inl (by decide))⟩

/-- C8 (Get changes nothing but recency): for every reachable cache and every
key, present or not, `Get` leaves `nbytes`, `Len()`, the map (hence the set of
live keys), the entries of the list up to their order, and the value found
under every key unchanged, and does not invoke `OnEvicted`. -/
theorem C8_get_frame (c : Cache V) (h : Reachable c) (key : String) :
    (Get c key).2.nbytes = c.nbytes ∧
    Len (Get c key).2 = Len c ∧
    (Get c key).2.cache = c.cache ∧
    (∀ k, contains (Get c key).2 k = contains c k) ∧
    (Get c key).2.ll.Perm c.ll ∧
    (∀ k, (Get (Get c key).2 k).1 = (Get c k).1) ∧
    (Get c key).2.calls = c.calls ∧
    (Get c key).2.maxBytes = c.maxBytes := by
  have hinv := h.inv
  cases hk : mapLookup c.cache key with
  | none =>
    rw [Get_miss hk]
    exact ⟨rfl, rfl, rfl, fun _ => rfl, List.Perm.refl _, fun _ => rfl, rfl, rfl⟩
  | some a =>
    obtain ⟨e, he, _, _⟩ := hinv.deref hk
    rw [Get_hit hk he]
    have hperm : (MoveToFront c.ll a).Perm c.ll := MoveToFront_perm hinv.addrs
    refine ⟨rfl, ?_, rfl, fun _ => rfl, hperm, ?_, rfl, rfl⟩
    · simp [Len, hperm.length_eq]
    · intro k
      have hmk : ∀ r, mapLookup c.cache k = r →
          mapLookup ({ c with ll := MoveToFront c.ll a } : Cache V).cache k = r := fun _ hr => hr
      have hel : ∀ b r, elementAt c.ll b = r →
          elementAt ({ c with ll := MoveToFront c.ll a } : Cache V).ll b = r := by
        intro b r hr
        show elementAt (MoveToFront c.ll a) b = r
        rw [elementAt_MoveToFront]; exact hr
      cases hb : mapLookup c.cache k with
      | none => rw [Get_miss (hmk _ hb), Get_miss hb]
      | some b =>
        cases hx : elementAt c.ll b with
        | none => rw [Get_dangling (hmk _ hb) (hel _ _ hx), Get_dangling hb hx]
        | some x => rw [Get_hit (hmk _ hb) (hel _ _ hx), Get_hit hb hx]

theorem C8_get_frame_witness :
    Reachable cacheAB ∧
    ((Get cacheAB "a").2.nbytes = cacheAB.nbytes ∧
    Len (Get cacheAB "a").2 = Len cacheAB ∧
    (Get cacheAB "a").2.cache = cacheAB.cache ∧
    (∀ k, contains (Get cacheAB "a").2 k = contains cacheAB k) ∧
    (Get cacheAB "a").2.ll.Perm cacheAB.ll ∧
    (∀ k, (Get (Get cacheAB "a").2 k).1 = (Get cacheAB k).1) ∧
    (Get cacheAB "a").2.calls = cacheAB.calls ∧
    (Get cacheAB "a").2.maxBytes = cacheAB.maxBytes) :=
  ⟨cacheAB_reachable, C8_get_frame cacheAB cacheAB_reachable "a"⟩

/-- C9, as stated, fails when the subtraction leaves the range of `int64`:
on the cache holding the single entry `("a", v)` with `v.Len() = 2^63 - 1`,
where `nbytes` is `-2^63`, `RemoveOldest` leaves `nbytes == 0`, which is not
`nbytes - (len("a") + v.Len()) = -2^64`. -/
theorem C9_counterexample :
    Reachable cacheMax ∧ cacheMax.ll = [] ++ [⟨0, ⟨"a", vMax⟩⟩] ∧
    (RemoveOldest cacheMax).nbytes = 0 ∧
    (RemoveOldest cacheMax).nbytes ≠
      cacheMax.nbytes - ((("a".utf8ByteSize : Nat) : Int) + Value.Len vMax) :=
  ⟨cacheMax_reachable, rfl, by decide, by decide⟩

/-- C9, amended (RemoveOldest on a non-empty cache): when the list of a
reachable cache ends with the entry `e = (k, v)`, `RemoveOldest` leaves the
list without its last entry (every other entry keeps its value and position),
deletes `k` from the map and no other key, so that `Get(k)` reports
`ok = false`; `Len()` decreases by 1, and `nbytes` becomes
`nbytes - (len(k) + v.Len())` reduced to `int64` by wrap-around, which is that
difference itself whenever it lies in the range of `int64`. -/
theorem C9_remove_oldest (c : Cache V) (h : Reachable c) (init : List (Element V))
    (e : Element V) (hl : c.ll = init ++ [e]) :
    (RemoveOldest c).ll = init ∧
    contains (RemoveOldest c) e.Value.key = false ∧
    (Get (RemoveOldest c) e.Value.key).1 = (none, false) ∧
    Len (RemoveOldest c) = Len c - 1 ∧
    (RemoveOldest c).nbytes =
      wrap64 (c.nbytes - ((e.Value.key.utf8ByteSize : Int) + Value.Len e.Value.value)) ∧
    (-9223372036854775808 ≤
        c.nbytes - ((e.Value.key.utf8ByteSize : Int) + Value.Len e.Value.value) →
      c.nbytes - ((e.Value.key.utf8ByteSize : Int) + Value.Len e.Value.value) <
        9223372036854775808 →
      (RemoveOldest c).nbytes =
        c.nbytes - ((e.Value.key.utf8ByteSize : Int) + Value.Len e.Value.value)) ∧
    (∀ k, k ≠ e.Value.key →
      mapLookup (RemoveOldest c).cache k = mapLookup c.cache k) ∧
    (∀ x ∈ init, mapLookup (RemoveOldest c).cache x.Value.key = some x.addr ∧
      elementAt (RemoveOldest c).ll x.addr = some x) := by
  have hinv := h.inv
  have hR := RemoveOldest_back hinv hl
  have hRinv : Inv (RemoveOldest c) := hinv.RemoveOldest
  have hll : (RemoveOldest c).ll = init := by rw [hR]
  have hcache : (RemoveOldest c).cache = mapDelete c.cache e.Value.key := by rw [hR]
  have hnone : mapLookup (RemoveOldest c).cache e.Value.key = none := by
    rw [hcache]; exact mapLookup_mapDelete_self _ _
  have hnb : (RemoveOldest c).nbytes =
      wrap64 (c.nbytes - ((e.Value.key.utf8ByteSize : Int) + Value.Len e.Value.value)) := by
    rw [hR]
    show wrap64 (c.nbytes - entryBytes e.Value) = _
    unfold entryBytes
    exact wrap64_sub_right _ _
  refine ⟨hll, ?_, ?_, ?_, hnb, ?_, ?_, ?_⟩
  · simp [contains, hnone]
  · rw [Get_miss hnone]
  · simp [Len, hll, hl]
  · intro h1 h2
    rw [hnb, wrap64_eq_self h1 h2]
  · intro k hk
    rw [hcache]; exact mapLookup_mapDelete_ne hk
  · intro x hx
    have hx2 : x ∈ (RemoveOldest c).ll := by rw [hll]; exact hx
    exact ⟨hRinv.lookup_of_mem hx2, elementAt_of_mem hRinv.addrs hx2⟩

theorem C9_remove_oldest_witness :
    Reachable cacheAB ∧ cacheAB.ll = [⟨1, ⟨"b", v0⟩⟩] ++ [⟨0, ⟨"a", v0⟩⟩] ∧
    ((RemoveOldest cacheAB).ll = [⟨1, ⟨"b", v0⟩⟩] ∧
    contains (RemoveOldest cacheAB) "a" = false ∧
    (Get (RemoveOldest cacheAB) "a").1 = (none, false) ∧
    Len (RemoveOldest cacheAB) = Len cacheAB - 1 ∧
    (RemoveOldest cacheAB).nbytes =
      wrap64 (cacheAB.nbytes - ((("a".utf8ByteSize : Nat) : Int) + Value.Len v0)) ∧
    (-9223372036854775808 ≤
        cacheAB.nbytes - ((("a".utf8ByteSize : Nat) : Int) + Value.Len v0) →
      cacheAB.nbytes - ((("a".utf8ByteSize : Nat) : Int) + Value.Len v0) <
        9223372036854775808 →
      (RemoveOldest cacheAB).nbytes =
        cacheAB.nbytes - ((("a".utf8ByteSize : Nat) : Int) + Value.Len v0)) ∧
    (∀ k, k ≠ "a" →
      mapLookup (RemoveOldest cacheAB).cache k = mapLookup cacheAB.cache k) ∧
    (∀ x ∈ [(⟨1, ⟨"b", v0⟩⟩ : Element Sized)],
      mapLookup (RemoveOldest cacheAB).cache x.Value.key = some x.addr ∧
      elementAt (RemoveOldest cacheAB).ll x.addr = some x)) :=
  ⟨cacheAB_reachable, rfl,
    C9_remove_oldest cacheAB cacheAB_reachable [⟨1, ⟨"b", v0⟩⟩] ⟨0, ⟨"a", v0⟩⟩ rfl⟩

/-- C10 (RemoveOldest on an empty cache): when the list holds no entry,
`RemoveOldest` returns the cache unchanged (list, map, `nbytes`) and the log of
`OnEvicted` invocations is unchanged too. -/
theorem C10_remove_oldest_empty (c : Cache V) (hl : c.ll = []) :
    RemoveOldest c = c ∧ (RemoveOldest c).calls = c.calls := by
  rw [RemoveOldest_empty hl]
  exact ⟨rfl, rfl⟩

theorem C10_remove_oldest_empty_witness :
    (New 2 true : Cache Sized).ll = [] ∧
    (RemoveOldest (New 2 true : Cache Sized) = New 2 true ∧
     (RemoveOldest (New 2 true : Cache Sized)).calls = (New 2 true : Cache Sized).calls) :=
  ⟨rfl, C10_remove_oldest_empty (New 2 true) rfl⟩

/-- C11, as stated, fails when the addition overflows: on `New(10, cb)`,
`Add("a", v)` with `v.Len() = 2^63 - 1` has a contribution of `2^63`, above
`maxBytes`, but `nbytes` wraps to `-2^63`, the guard `10 < nbytes` is false, and
`Add` returns with the entry kept (`Len() == 1`) and no callback invocation. -/
theorem C11_counterexample :
    Reachable (New 10 true : Cache Sized) ∧
    0 < (New 10 true : Cache Sized).maxBytes ∧
    (∀ e ∈ (New 10 true : Cache Sized).ll, 0 ≤ Value.Len e.Value.value) ∧
    0 ≤ Value.Len vMax ∧
    (New 10 true : Cache Sized).maxBytes <
      (("a".utf8ByteSize : Nat) : Int) + Value.Len vMax ∧
    (Add 1 (New 10 true : Cache Sized) "a" vMax).map
        (fun d => (Len d, d.nbytes, d.calls.length)) =
      some (1, -9223372036854775808, 0) :=
  ⟨Reachable.new 10 true, by decide, by decide, by decide, by decide, by decide⟩

/-- C11, amended (an oversized entry is inserted, then evicted, when no
addition overflows): for every reachable cache with `maxBytes > 0` holding
values of non-negative size, and every `Add(key, value)` with
`len(key) + value.Len()` above `maxBytes`, such that the contributions of the
live entries plus `len(key) + value.Len()` total less than `2^63`, the call
returns with an empty cache (`Len() == 0`, `nbytes == 0`, `key` not found);
when `OnEvicted` is configured it has been invoked once for each entry of the
list as it stood after the insert/update step, oldest first and `(key, value)`
last, hence for `(key, value)` and for every entry that was live before the
call (the entry of `key` itself, when it was live, with the value just
written). -/
theorem C11_oversized_entry (c : Cache V) (h : Reachable c) (hB : 0 < c.maxBytes)
    (key : String) (value : V)
    (hnn : ∀ e ∈ c.ll, 0 ≤ Value.Len e.Value.value)
    (hbig : c.maxBytes < (key.utf8ByteSize : Int) + Value.Len value)
    (hfits : (c.ll.map
        (fun e => (e.Value.key.utf8ByteSize : Int) + Value.Len e.Value.value)).sum +
      ((key.utf8ByteSize : Int) + Value.Len value) < 9223372036854775808) :
    (∃ d, Add (c.ll.length + 1) c key value = some d) ∧
    ∀ fuel d, Add fuel c key value = some d →
      d.ll = [] ∧ Len d = 0 ∧ d.nbytes = 0 ∧ contains d key = false ∧
      (Get d key).1 = (none, false) ∧
      (c.OnEvicted = true →
        ∃ recs, d.calls = c.calls ++ recs ∧
          recs.map callPair =
            ((insertOrUpdate c key value).ll.reverse.map elementPair) ∧
          recs.map callPair ≠ [] ∧
          (recs.map callPair).getLast? = some (key, value) ∧
          ∀ e ∈ c.ll, ∃ r ∈ recs, r.key = e.Value.key ∧
            (e.Value.key ≠ key → r.value = e.Value.value)) := by
  have hinv := h.inv
  refine ⟨Add_terminates hinv (by omega) key value, ?_⟩
  intro fuel d hd
  obtain ⟨gone, recs, hl, _, hcalls, hpairs, _, hdb, _, hdinv, hdmax, _, _⟩ := Add_spec hinv hd
  obtain ⟨a, l1, l2, hll, hcase⟩ := insertOrUpdate_ll hinv key value
  have hsub : ∀ x ∈ l1 ++ l2, x ∈ c.ll := by
    intro x hx
    rcases hcase with ⟨_, hcl, _⟩ | ⟨_, e, hcl, _, _⟩
    · rw [hcl]; exact hx
    · rw [hcl]
      rcases List.mem_append.1 hx with hx | hx
      · exact List.mem_append_left _ hx
      · exact List.mem_append_right _ (List.mem_cons_of_mem _ hx)
  have hdl : d.ll = [] := by
    cases hdl : d.ll with
    | nil => rfl
    | cons x rest =>
      exfalso
      rw [hdl, hll, List.cons_append] at hl
      injection hl with hx hrest
      have hrestnn : ∀ y ∈ rest, 0 ≤ Value.Len y.Value.value := by
        intro y hy
        apply hnn y (hsub y _)
        rw [hrest]; exact List.mem_append_left _ hy
      have hgonenn : ∀ y ∈ gone, 0 ≤ Value.Len y.Value.value := by
        intro y hy
        apply hnn y (hsub y _)
        rw [hrest]; exact List.mem_append_right _ hy
      have hsum := sum_rawBytes_nonneg hrestnn
      have hsumg := sum_rawBytes_nonneg hgonenn
      have hmid := insertOrUpdate_sum_le hinv hnn key value
      have hfits2 : (c.ll.map (fun e => rawBytes e.Value)).sum +
          ((key.utf8ByteSize : Int) + Value.Len value) < 9223372036854775808 := hfits
      rw [hll, hrest] at hmid
      have hacct := hdinv.acct
      rw [hdl, ← hx] at hacct
      simp only [List.map_cons, List.sum_cons, List.map_append, List.sum_append] at hacct hmid
      have hhead : rawBytes (⟨key, value⟩ : entry V) =
          (key.utf8ByteSize : Int) + Value.Len value := rfl
      rw [hhead] at hacct hmid
      rw [wrap64_eq_self (by omega) (by omega)] at hacct
      rw [Bool.eq_false_iff, Ne, overBudget_iff, hdmax] at hdb
      apply hdb
      constructor
      · omega
      · omega
  have hnb : d.nbytes = 0 := by rw [hdinv.acct, hdl]; exact wrap64_zero
  have hnone : mapLookup d.cache key = none :=
    hdinv.lookup_none.2 (by rw [hdl]; simp)
  refine ⟨hdl, by simp [Len, hdl], hnb, by simp [contains, hnone], by rw [Get_miss hnone], ?_⟩
  intro hcb
  rw [hdl, List.nil_append] at hl
  rw [hcb, if_pos rfl, ← hl] at hpairs
  refine ⟨recs, hcalls, hpairs, ?_, ?_, ?_⟩
  · rw [hpairs, hll]; simp
  · rw [hpairs, hll]; simp [elementPair]
  · intro e he
    have hmemPair : ∀ x ∈ (insertOrUpdate c key value).ll,
        ∃ r ∈ recs, r.key = x.Value.key ∧ r.value = x.Value.value := by
      intro x hx
      have : elementPair x ∈ recs.map callPair := by
        rw [hpairs]
        exact List.mem_map_of_mem elementPair (List.mem_reverse.2 hx)
      obtain ⟨r, hr, hrx⟩ := List.mem_map.1 this
      simp only [callPair, elementPair, Prod.mk.injEq] at hrx
      exact ⟨r, hr, hrx.1, hrx.2⟩
    rcases hcase with ⟨_, hcl, _⟩ | ⟨_, e0, hcl, _, he0k⟩
    · have hx : e ∈ (insertOrUpdate c key value).ll := by
        rw [hll]; apply List.mem_cons_of_mem; rw [← hcl]; exact he
      obtain ⟨r, hr, h1, h2⟩ := hmemPair e hx
      exact ⟨r, hr, h1, fun _ => h2⟩
    · rw [hcl] at he
      rcases List.mem_append.1 he with he | he
      · obtain ⟨r, hr, h1, h2⟩ := hmemPair e (by
          rw [hll]; exact List.mem_cons_of_mem _ (List.mem_append_left _ he))
        exact ⟨r, hr, h1, fun _ => h2⟩
      · rcases List.mem_cons.1 he with rfl | he
        · obtain ⟨r, hr, h1, _⟩ := hmemPair ⟨a, ⟨key, value⟩⟩ (by rw [hll]; simp)
          exact ⟨r, hr, by rw [h1, he0k], fun hne => absurd he0k hne⟩
        · obtain ⟨r, hr, h1, h2⟩ := hmemPair e (by
            rw [hll]; exact List.mem_cons_of_mem _ (List.mem_append_right _ he))
          exact ⟨r, hr, h1, fun _ => h2⟩

theorem C11_oversized_entry_witness :
    Reachable cacheAB ∧ 0 < cacheAB.maxBytes ∧
    (∀ e ∈ cacheAB.ll, 0 ≤ Value.Len e.Value.value) ∧
    cacheAB.maxBytes < (("c".utf8ByteSize : Nat) : Int) + Value.Len v5 ∧
    (cacheAB.ll.map
        (fun e => (e.Value.key.utf8ByteSize : Int) + Value.Len e.Value.value)).sum +
      ((("c".utf8ByteSize : Nat) : Int) + Value.Len v5) < 9223372036854775808 ∧
    ((∃ d, Add (cacheAB.ll.length + 1) cacheAB "c" v5 = some d) ∧
    ∀ fuel d, Add fuel cacheAB "c" v5 = some d →
      d.ll = [] ∧ Len d = 0 ∧ d.nbytes = 0 ∧ contains d "c" = false ∧
      (Get d "c").1 = (none, false) ∧
      (cacheAB.OnEvicted = true →
        ∃ recs, d.calls = cacheAB.calls ++ recs ∧
          recs.map callPair =
            ((insertOrUpdate cacheAB "c" v5).ll.reverse.map elementPair) ∧
          recs.map callPair ≠ [] ∧
          (recs.map callPair).getLast? = some ("c", v5) ∧
          ∀ e ∈ cacheAB.ll, ∃ r ∈ recs, r.key = e.Value.key ∧
            (e.Value.key ≠ "c" → r.value = e.Value.value))) :=
  ⟨cacheAB_reachable, by decide, by decide, by decide, by decide,
    C11_oversized_entry cacheAB cacheAB_reachable (by decide) "c" v5 (by decide) (by decide)
      (by decide)⟩

/-- C12 (callback exactness): with `OnEvicted` configured, on every reachable
cache, `RemoveOldest` on a list ending with `e` appends exactly one record,
carrying the key and the stored value of `e`, whose key is then absent;
`RemoveOldest` on an empty list and `Get` append nothing; an `Add` that
returns appends exactly one record for each entry `gone` it removed, oldest
first, carrying that entry's key and stored value, no record has a key still
present after the call, and an `Add` that removes nothing appends nothing. -/
theorem C12_callback_exactness (c : Cache V) (h : Reachable c) (hcb : c.OnEvicted = true) :
    (∀ init e, c.ll = init ++ [e] →
      ∃ r, (RemoveOldest c).calls = c.calls ++ [r] ∧ callPair r = elementPair e ∧
        contains (RemoveOldest c) e.Value.key = false) ∧
    (c.ll = [] → (RemoveOldest c).calls = c.calls) ∧
    (∀ key, (Get c key).2.calls = c.calls) ∧
    (∀ key value fuel d, Add fuel c key value = some d →
      ∃ gone recs, (insertOrUpdate c key value).ll = d.ll ++ gone ∧
        d.calls = c.calls ++ recs ∧
        recs.map callPair = gone.reverse.map elementPair ∧
        recs.length = gone.length ∧
        (∀ r ∈ recs, contains d r.key = false) ∧
        (gone = [] → d.calls = c.calls)) := by
  have hinv := h.inv
  refine ⟨?_, ?_, ?_, ?_⟩
  · intro init e hl
    refine ⟨evictionRecord c init e, ?_, rfl, ?_⟩
    · rw [RemoveOldest_calls hinv hl, hcb]; rfl
    · have : (RemoveOldest c).cache = mapDelete c.cache e.Value.key := by
        rw [RemoveOldest_back hinv hl]
      simp [contains, this, mapLookup_mapDelete_self]
  · intro hl
    rw [RemoveOldest_empty hl]
  · intro key
    cases hk : mapLookup c.cache key with
    | none => rw [Get_miss hk]
    | some a =>
      cases he : elementAt c.ll a with
      | none => rw [Get_dangling hk he]
      | some e => rw [Get_hit hk he]
  · intro key value fuel d hd
    obtain ⟨gone, recs, hl, _, hcalls, hpairs, _, _, _, hdinv, _, _, _⟩ := Add_spec hinv hd
    rw [hcb, if_pos rfl] at hpairs
    have hlen : recs.length = gone.length := by
      have := congrArg List.length hpairs
      simpa using this
    refine ⟨gone, recs, hl, hcalls, hpairs, hlen, ?_, ?_⟩
    · intro r hr
      have hmem : callPair r ∈ gone.reverse.map elementPair := by
        rw [← hpairs]; exact List.mem_map_of_mem callPair hr
      obtain ⟨g, hg, hgr⟩ := List.mem_map.1 hmem
      have hg2 : g ∈ gone := List.mem_reverse.1 hg
      have hkey : r.key = g.Value.key := by
        have := congrArg Prod.fst hgr
        simpa [callPair, elementPair] using this.symm
      have hk := (hinv.insertOrUpdate key value).keys
      rw [hl] at hk
      simp only [List.map_append] at hk
      have hdisj := (List.nodup_append.1 hk).2.2
      have hnone : mapLookup d.cache r.key = none := by
        apply hdinv.lookup_none.2
        intro x hx hxk
        exact hdisj (List.mem_map_of_mem (fun e => e.Value.key) hx)
          (List.mem_map.2 ⟨g, hg2, by rw [hxk, hkey]⟩)
      simp [contains, hnone]
    · intro hg
      rw [hg] at hlen
      have : recs = [] := List.length_eq_zero.1 hlen
      rw [hcalls, this, List.append_nil]

theorem C12_callback_exactness_witness :
    Reachable cacheAB ∧ cacheAB.OnEvicted = true ∧
    ((∀ init e, cacheAB.ll = init ++ [e] →
      ∃ r, (RemoveOldest cacheAB).calls = cacheAB.calls ++ [r] ∧
        callPair r = elementPair e ∧
        contains (RemoveOldest cacheAB) e.Value.key = false) ∧
    (cacheAB.ll = [] → (RemoveOldest cacheAB).calls = cacheAB.calls) ∧
    (∀ key, (Get cacheAB key).2.calls = cacheAB.calls) ∧
    (∀ key value fuel d, Add fuel cacheAB key value = some d →
      ∃ gone recs, (insertOrUpdate cacheAB key value).ll = d.ll ++ gone ∧
        d.calls = cacheAB.calls ++ recs ∧
        recs.map callPair = gone.reverse.map elementPair ∧
        recs.length = gone.length ∧
        (∀ r ∈ recs, contains d r.key = false) ∧
        (gone = [] → d.calls = cacheAB.calls))) :=
  ⟨cacheAB_reachable, rfl, C12_callback_exactness cacheAB cacheAB_reachable rfl⟩

/-- A call of `Add` or of `Get`. -/
inductive Op (V : Type) where
  | add (key : String) (value : V)
  | get (key : String)

/-- The value last added under a key by a sequence of calls, newest call
first; `none` when the key was never added. -/
def latest : List (Op V) → String → Option V
  | [], _ => none
  | Op.add k v :: ops, key => if key = k then some v else latest ops key
  | Op.get _ :: ops, key => latest ops key

/-- The keys added by a sequence of calls, with repetitions. -/
def addedKeys : List (Op V) → List String
  | [] => []
  | Op.add k _ :: ops => k :: addedKeys ops
  | Op.get _ :: ops => addedKeys ops

/-- The cache produced from `New(0, onEvicted)` by a sequence of `Add` and
`Get` calls, listed newest call first. -/
inductive UnboundedRun (onEvicted : Bool) : List (Op V) → Cache V → Prop
  | new : UnboundedRun onEvicted [] (New 0 onEvicted)
  | add (ops : List (Op V)) (c : Cache V) (key : String) (value : V) (fuel : Nat)
      (d : Cache V) : UnboundedRun onEvicted ops c → Add fuel c key value = some d →
      UnboundedRun onEvicted (Op.add key value :: ops) d
  | get (ops : List (Op V)) (c : Cache V) (key : String) :
      UnboundedRun onEvicted ops c → UnboundedRun onEvicted (Op.get key :: ops) (Get c key).2

omit [Value V] in
theorem latest_isSome (ops : List (Op V)) (key : String) :
    (latest ops key).isSome = true ↔ key ∈ addedKeys ops := by
  induction ops with
  | nil => simp [latest, addedKeys]
  | cons op ops ih =>
    cases op with
    | add k v =>
      by_cases hk : key = k
      · simp [latest, addedKeys, hk]
      · simp [latest, addedKeys, hk, ih]
    | get k => simpa [latest, addedKeys] using ih

theorem UnboundedRun.facts {onEvicted : Bool} {ops : List (Op V)} {c : Cache V}
    (h : UnboundedRun onEvicted ops c) :
    Reachable c ∧ c.maxBytes = 0 ∧ c.calls = [] ∧
      ∀ key, lookupValue c key = latest ops key := by
  induction h with
  | new => exact ⟨Reachable.new 0 onEvicted, rfl, rfl, fun _ => rfl⟩
  | add ops c key value fuel d _ hd ih =>
    obtain ⟨hr, h0, hcalls, hval⟩ := ih
    have hd2 := hd
    rw [Add_unbounded h0 fuel key value] at hd2
    have hdeq : d = insertOrUpdate c key value := (Option.some.inj hd2).symm
    have hf := insertOrUpdate_frame c key value
    refine ⟨Reachable.add c key value fuel d hr hd, ?_, ?_, ?_⟩
    · rw [hdeq, hf.1, h0]
    · rw [hdeq, hf.2.2, hcalls]
    · intro k
      rw [hdeq, lookupValue_insertOrUpdate hr.inv, hval]
      rfl
  | get ops c key _ ih =>
    obtain ⟨hr, h0, hcalls, hval⟩ := ih
    refine ⟨Reachable.get c key hr, ?_, ?_, ?_⟩
    · cases hk : mapLookup c.cache key with
      | none => rw [Get_miss hk]; exact h0
      | some a =>
        cases he : elementAt c.ll a with
        | none => rw [Get_dangling hk he]; exact h0
        | some e => rw [Get_hit hk he]; exact h0
    · cases hk : mapLookup c.cache key with
      | none => rw [Get_miss hk]; exact hcalls
      | some a =>
        cases he : elementAt c.ll a with
        | none => rw [Get_dangling hk he]; exact hcalls
        | some e => rw [Get_hit hk he]; exact hcalls
    · intro k
      rw [lookupValue_Get, hval]
      rfl

/-- C13 (unbounded mode): for a cache built with `maxBytes = 0` and every
sequence `ops` of `Add` and `Get` calls, with values of any size, every
further `Add` returns as its bare insert/update step (no `RemoveOldest`),
`OnEvicted` has never been invoked, `Get` finds under every key the value
last added for it (and nothing under a key never added), so every key ever
added is found with its latest value, and `Len()` is the number of distinct
keys added. -/
theorem C13_unbounded (onEvicted : Bool) (ops : List (Op V)) (c : Cache V)
    (h : UnboundedRun onEvicted ops c) :
    (∀ key value fuel, Add fuel c key value = some (insertOrUpdate c key value)) ∧
    c.calls = [] ∧
    (∀ key, (Get c key).1 = (latest ops key, (latest ops key).isSome)) ∧
    (∀ key, key ∈ addedKeys ops →
      ∃ v, latest ops key = some v ∧ (Get c key).1 = (some v, true)) ∧
    Len c = ((addedKeys ops).toFinset.card : Int) := by
  obtain ⟨hr, h0, hcalls, hval⟩ := h.facts
  have hinv := hr.inv
  have hget : ∀ key, (Get c key).1 = (latest ops key, (latest ops key).isSome) := by
    intro key
    rw [Get_fst, hval]
  refine ⟨fun key value fuel => Add_unbounded h0 fuel key value, hcalls, hget, ?_, ?_⟩
  · intro key hkey
    obtain ⟨v, hv⟩ := Option.isSome_iff_exists.1 ((latest_isSome ops key).2 hkey)
    exact ⟨v, hv, by rw [hget, hv]; rfl⟩
  · have hset : (c.ll.map (fun e => e.Value.key)).toFinset = (addedKeys ops).toFinset := by
      ext k
      rw [List.mem_toFinset, List.mem_toFinset, ← latest_isSome, ← hval]
      constructor
      · intro hk
        obtain ⟨e, he, hek⟩ := List.mem_map.1 hk
        have := (lookupValue_eq_some hinv).2 ⟨e, he, hek, rfl⟩
        rw [this]; rfl
      · intro hk
        obtain ⟨v, hv⟩ := Option.isSome_iff_exists.1 hk
        obtain ⟨e, he, hek, _⟩ := (lookupValue_eq_some hinv).1 hv
        exact List.mem_map.2 ⟨e, he, hek⟩
    rw [← hset, List.toFinset_card_of_nodup hinv.keys]
    simp [Len]

theorem C13_unbounded_witness :
    UnboundedRun true [Op.get "a", Op.add "a" v5, Op.add "a" v0]
      cacheU ∧
    ((∀ key value fuel,
        Add fuel cacheU key value =
          some (insertOrUpdate cacheU key value)) ∧
    cacheU.calls = [] ∧
    (∀ key, (Get cacheU key).1 =
      (latest [Op.get "a", Op.add "a" v5, Op.add "a" v0] key,
        (latest [Op.get "a", Op.add "a" v5, Op.add "a" v0] key).isSome)) ∧
    (∀ key, key ∈ addedKeys [Op.get "a", Op.add "a" v5, Op.add "a" v0] →
      ∃ v, latest [Op.get "a", Op.add "a" v5, Op.add "a" v0] key = some v ∧
        (Get cacheU key).1 =
          (some v, true)) ∧
    Len cacheU =
      ((addedKeys [Op.get "a", Op.add "a" v5, Op.add "a" v0]).toFinset.card : Int)) :=
  have hrun : UnboundedRun true [Op.get "a", Op.add "a" v5, Op.add "a" v0]
      cacheU :=
    UnboundedRun.get _ cacheU "a"
      (UnboundedRun.add _ ⟨0, 1, [⟨0, ⟨"a", v0⟩⟩], [("a", 0)], true, [], 1⟩ "a" v5 0 _
        (UnboundedRun.add [] (New 0 true) "a" v0 0 _ UnboundedRun.new (by decide))
        (by decide))
  ⟨hrun, C13_unbounded true _ _ hrun⟩

/-- C14, as stated, fails on a bounded cache: on `New(1, nil)`, after
`Add("a", v0)` (size 0) the call `Add("a", v5)` (size 5) writes the value and
then evicts the entry, leaving `Len() == 0` and `nbytes == 0`, not `1` and
`len("a") + 5`. -/
theorem C14_counterexample :
    ((Add 2 (New 1 false : Cache Sized) "a" v0).bind (fun d => Add 2 d "a" v5)).map
        (fun d => (Len d, d.nbytes)) = some (0, 0) ∧
    ((0 : Int), (0 : Int)) ≠ (1, (("a".utf8ByteSize : Nat) : Int) + Value.Len v5) := by
  decide

/-- C14, amended (update, not duplicate): starting from `New(B, onEvicted)`
with `B = 0` or `len(key) + v2.Len() <= B`, whenever `Add(key, v1)` followed by
`Add(key, v2)` return they leave `Len() == 1` and `nbytes` equal to
`len(key) + v2.Len()` reduced to `int64`, which is `len(key) + v2.Len()` itself
when that sum is below `2^63`; for `B >= 0` both calls do return. -/
theorem C14_update_not_duplicate (B : Int) (onEvicted : Bool) (key : String) (v1 v2 : V)
    (hfit : B = 0 ∨ (key.utf8ByteSize : Int) + Value.Len v2 ≤ B) :
    (0 ≤ B → ∃ d1 d2, Add 1 (New B onEvicted) key v1 = some d1 ∧
      Add 2 d1 key v2 = some d2) ∧
    ∀ f1 d1 f2 d2, Add f1 (New B onEvicted) key v1 = some d1 →
      Add f2 d1 key v2 = some d2 →
      Len d2 = 1 ∧
      d2.nbytes = wrap64 ((key.utf8ByteSize : Int) + Value.Len v2) ∧
      ((key.utf8ByteSize : Int) + Value.Len v2 < 9223372036854775808 →
        d2.nbytes = (key.utf8ByteSize : Int) + Value.Len v2) := by
  have hnew : Inv (New B onEvicted : Cache V) := Inv.New B onEvicted
  have hfacts : ∀ f1 d1, Add f1 (New B onEvicted) key v1 = some d1 →
      Inv d1 ∧ d1.maxBytes = B ∧ d1.ll.length ≤ 1 := by
    intro f1 d1 h1
    obtain ⟨gone, _, hl, _, _, _, _, _, _, hd1, hmax, _, _⟩ := Add_spec hnew h1
    refine ⟨hd1, hmax, ?_⟩
    have hmid : (insertOrUpdate (New B onEvicted) key v1).ll = [⟨0, ⟨key, v1⟩⟩] := by
      rw [insertOrUpdate_new v1 (by rfl)]; rfl
    have := congrArg List.length hl
    rw [hmid] at this
    simp at this
    omega
  constructor
  · intro hB
    obtain ⟨d1, h1⟩ := Add_terminates hnew hB key v1
    obtain ⟨hd1, hmax, hlen⟩ := hfacts _ _ h1
    obtain ⟨d2, h2⟩ := Add_terminates hd1 (by rw [hmax]; exact hB) key v2
    exact ⟨d1, d2, h1, evictLoop_mono (by omega) h2⟩
  · intro f1 d1 f2 d2 h1 h2
    obtain ⟨hd1, hmax, hlen⟩ := hfacts _ _ h1
    have hd2 := hd1.Add h2
    obtain ⟨a, rest, gone, hdl, hmid⟩ := Add_keeps_front hd1 (by rw [hmax]; exact hfit) h2
    have hmlen := insertOrUpdate_length hd1 key v2
    obtain ⟨a2, l1, l2, hll, hcase⟩ := insertOrUpdate_ll hd1 key v2
    have hl12 : l1 ++ l2 = [] := by
      rcases hcase with ⟨hnone, hcl, _⟩ | ⟨_, e, hcl, _, _⟩
      · obtain ⟨gone1, _, hl1, _⟩ := Add_spec hnew h1
        have hmid1 : (insertOrUpdate (New B onEvicted) key v1).ll = [⟨0, ⟨key, v1⟩⟩] := by
          rw [insertOrUpdate_new v1 (by rfl)]; rfl
        rw [hmid1] at hl1
        cases hd1l : d1.ll with
        | nil => rw [← hcl, hd1l]
        | cons x xs =>
          exfalso
          rw [hd1l, List.cons_append] at hl1
          injection hl1 with hx _
          have hxmem : x ∈ d1.ll := by rw [hd1l]; simp
          have := hd1.lookup_none.1 hnone x hxmem
          rw [← hx] at this
          exact this rfl
      · rw [hcl] at hlen
        simp at hlen
        have h1' : l1 = [] := List.length_eq_zero.1 (by omega)
        have h2' : l2 = [] := List.length_eq_zero.1 (by omega)
        rw [h1', h2']; rfl
    rw [hll, hl12] at hmid
    injection hmid with _ hrg
    have hrest : rest = [] := by
      have := congrArg List.length hrg
      simp at this
      exact List.length_eq_zero.1 (by omega)
    have hnb : d2.nbytes = wrap64 ((key.utf8ByteSize : Int) + Value.Len v2) := by
      rw [hd2.acct, hdl, hrest]
      simp [rawBytes]
    refine ⟨by simp [Len, hdl, hrest], hnb, ?_⟩
    intro hlt
    have hlo := (Value.Len_int v2).1
    rw [hnb, wrap64_eq_self (by omega) hlt]

theorem C14_update_not_duplicate_witness :
    (Add 1 (New 2 true) "a" v0 = some cacheA ∧ contains cacheA "a" = true) ∧
    ((2 : Int) = 0 ∨ (("a".utf8ByteSize : Nat) : Int) + Value.Len vOne ≤ 2) ∧
    ((0 ≤ (2 : Int) → ∃ d1 d2, Add 1 (New 2 true) "a" v0 = some d1 ∧
      Add 2 d1 "a" vOne = some d2) ∧
    ∀ f1 d1 f2 d2, Add f1 (New 2 true) "a" v0 = some d1 →
      Add f2 d1 "a" vOne = some d2 →
      Len d2 = 1 ∧
      d2.nbytes = wrap64 ((("a".utf8ByteSize : Nat) : Int) + Value.Len vOne) ∧
      ((("a".utf8ByteSize : Nat) : Int) + Value.Len vOne < 9223372036854775808 →
        d2.nbytes = (("a".utf8ByteSize : Nat) : Int) + Value.Len vOne)) :=
  ⟨by decide, by decide, C14_update_not_duplicate 2 true "a" v0 vOne (by decide)⟩

/-- C15 (idempotent read): for every reachable cache and every key, a second
`Get(key)` returns the same result as the first and leaves the cache exactly
as the first left it (same list order, same map, same `nbytes`). -/
theorem C15_idempotent_read (c : Cache V) (h : Reachable c) (key : String) :
    Get (Get c key).2 key = Get c key := by
  have hinv := h.inv
  cases hk : mapLookup c.cache key with
  | none => rw [Get_miss hk]; exact Get_miss hk
  | some a =>
    obtain ⟨e, he, _, hea⟩ := hinv.deref hk
    obtain ⟨_, l1, l2, _, hm, h1, h2⟩ := MoveToFront_split hinv.addrs he
    rw [Get_hit hk he, hm]
    have hrest : ∀ x ∈ l1 ++ l2, x.addr ≠ e.addr := by
      intro x hx
      rw [hea]
      rcases List.mem_append.1 hx with hx | hx
      · exact h1 x hx
      · exact h2 x hx
    have hk2 : mapLookup ({ c with ll := e :: (l1 ++ l2) } : Cache V).cache key = some a := hk
    have he2 : elementAt ({ c with ll := e :: (l1 ++ l2) } : Cache V).ll a = some e := by
      show elementAt (e :: (l1 ++ l2)) a = some e
      unfold elementAt
      exact List.find?_cons_of_pos _ (by simpa using hea)
    rw [Get_hit hk2 he2]
    have hmf : MoveToFront (e :: (l1 ++ l2)) a = e :: (l1 ++ l2) := by
      rw [← hea]; exact MoveToFront_front hrest
    simp only [hmf]

theorem C15_idempotent_read_witness :
    Reachable cacheAB ∧ Get (Get cacheAB "a").2 "a" = Get cacheAB "a" :=
  ⟨cacheAB_reachable, C15_idempotent_read cacheAB cacheAB_reachable "a"⟩

/-- C16, as stated, fails in two ways.  `New(-1, nil)` is a cache built by
`New`, and on it `Add("a", v0)` does not return, whatever the number of
iterations allowed to its loop.  And on `New(2, nil)` the call `Add("a", nil)`
panics when it calls `Len()` on the nil value. -/
theorem C16_counterexample :
    Reachable (New (-1) false : Cache Sized) ∧
    (¬ ∃ fuel d,
      AddValue fuel (New (-1) false : Cache Sized) "a" (some v0) = Outcome.returned d) ∧
    Reachable (New 2 false : Cache Sized) ∧
    (¬ ∃ fuel d,
      AddValue fuel (New 2 false : Cache Sized) "a" none = Outcome.returned d) ∧
    AddValue 1 (New 2 false : Cache Sized) "a" none = Outcome.panicked := by
  refine ⟨Reachable.new (-1) false, ?_, Reachable.new 2 false, ?_, rfl⟩
  · rintro ⟨fuel, d, hd⟩
    have hneg : NegBudget (insertOrUpdate (New (-1) false : Cache Sized) "a" v0) :=
      NegBudget.afterInsert (Inv.New (-1) false) (by decide) (by decide) "a" (by decide)
        (by decide)
    have hnone : Add fuel (New (-1) false : Cache Sized) "a" v0 = none := hneg.loopNone fuel
    simp [AddValue, hnone] at hd
  · rintro ⟨fuel, d, hd⟩
    simp [AddValue] at hd

/-- C16, amended (totality for a non-negative budget and values that are not
nil): on every reachable cache with `maxBytes >= 0`, every pointer found in
the map refers to a node of the list, so that `Get` and `Add` dereference it
without failing (`Get`, `RemoveOldest` and `Len` have no other way to fail or
loop), and `Add(key, value)` with a value that is not nil never panics and
returns: its loop exits after some number `n` of `RemoveOldest` calls, at most
the number of entries in the list right after the insert/update step. -/
theorem C16_total (c : Cache V) (h : Reachable c) (hB : 0 ≤ c.maxBytes)
    (key : String) (value : V) :
    (∀ k a, mapLookup c.cache k = some a → ∃ e, elementAt c.ll a = some e ∧ e ∈ c.ll) ∧
    (∃ d, AddValue (insertOrUpdate c key value).ll.length c key (some value) =
      Outcome.returned d) ∧
    (∀ fuel, AddValue fuel c key (some value) ≠ Outcome.panicked) ∧
    (∀ fuel d, AddValue fuel c key (some value) = Outcome.returned d →
      ∃ n, n ≤ (insertOrUpdate c key value).ll.length ∧
        d = RemoveOldest^[n] (insertOrUpdate c key value)) := by
  have hinv := h.inv
  have hm := hinv.insertOrUpdate key value
  have hf := insertOrUpdate_frame c key value
  refine ⟨?_, ?_, ?_, ?_⟩
  · intro k a hk
    obtain ⟨e, he, _, _⟩ := hinv.deref hk
    exact ⟨e, he, (elementAt_mem he).1⟩
  · have hstop : (insertOrUpdate c key value).maxBytes = 0 ∨
        wrap64 ((([] : List (Element V)).map (fun e => rawBytes e.Value)).sum) ≤
          (insertOrUpdate c key value).maxBytes := by
      right
      rw [hf.1]
      simpa [wrap64_zero] using hB
    have hnil : (insertOrUpdate c key value).ll = [] ++ (insertOrUpdate c key value).ll := by
      simp
    obtain ⟨d, hd⟩ := evictLoop_terminates hm hnil hstop
    have hd2 : Add (insertOrUpdate c key value).ll.length c key value = some d := hd
    exact ⟨d, by simp [AddValue, hd2]⟩
  · intro fuel
    cases hA : Add fuel c key value <;> simp [AddValue, hA]
  · intro fuel d hd
    have hadd : Add fuel c key value = some d := by
      unfold AddValue at hd
      cases hA : Add fuel c key value with
      | none => simp [hA] at hd
      | some x =>
        simp only [hA, Outcome.returned.injEq] at hd
        rw [hd]
    obtain ⟨gone, hl, hdeq, _, _⟩ := evictLoop_spec hm hadd
    refine ⟨gone.length, ?_, hdeq⟩
    rw [hl]; simp

theorem C16_total_witness :
    Reachable cacheAB ∧ 0 ≤ cacheAB.maxBytes ∧
    ((∀ k a, mapLookup cacheAB.cache k = some a →
      ∃ e, elementAt cacheAB.ll a = some e ∧ e ∈ cacheAB.ll) ∧
    (∃ d, AddValue (insertOrUpdate cacheAB "c" v0).ll.length cacheAB "c" (some v0) =
      Outcome.returned d) ∧
    (∀ fuel, AddValue fuel cacheAB "c" (some v0) ≠ Outcome.panicked) ∧
    (∀ fuel d, AddValue fuel cacheAB "c" (some v0) = Outcome.returned d →
      ∃ n, n ≤ (insertOrUpdate cacheAB "c" v0).ll.length ∧
        d = RemoveOldest^[n] (insertOrUpdate cacheAB "c" v0))) :=
  ⟨cacheAB_reachable, by decide, C16_total cacheAB cacheAB_reachable (by decide) "c" v0⟩

/-- Without non-negative sizes the bound on the last eviction can fail under
wrap-around: on `New(5, nil)`, after `Add("a", vNeg)` (size -10) the call
`Add("b", vMax)` evicts `"a"` and leaves `nbytes == -2^63`, and `-2^63` plus
the contribution `-9` of `"a"` is not above `maxBytes = 5`. -/
theorem last_eviction_bound_needs_nonneg :
    ((Add 1 (New 5 false : Cache Sized) "a" vNeg).bind (fun c => Add 2 c "b" vMax)).map
        (fun d => (Len d, d.nbytes)) = some (1, -9223372036854775808) ∧
    ¬ ((5 : Int) <
      -9223372036854775808 + ((("a".utf8ByteSize : Nat) : Int) + Value.Len vNeg)) := by
  decide

/-- C17 (Add evicts no more than needed): for every reachable cache holding
values of non-negative size and every `Add` of a value of non-negative size
that returns, with `gone` the entries it evicted (a back segment of the
list after the insert/update step, its first element being the last entry
evicted): if `gone` is not empty then `nbytes` after the call plus the byte
contribution of the last entry evicted is above `maxBytes`, and if
`nbytes <= maxBytes` already held after the insert/update step then nothing
is evicted and `Add` leaves the cache of that step. -/
theorem C17_no_excess_eviction (c : Cache V) (h : Reachable c) (key : String) (value : V)
    (hnn : ∀ e ∈ c.ll, 0 ≤ Value.Len e.Value.value) (hv : 0 ≤ Value.Len value)
    (fuel : Nat) (d : Cache V) (hd : Add fuel c key value = some d) :
    ∃ gone, (insertOrUpdate c key value).ll = d.ll ++ gone ∧
      d = RemoveOldest^[gone.length] (insertOrUpdate c key value) ∧
      (∀ e rest, gone = e :: rest →
        c.maxBytes < d.nbytes +
          ((e.Value.key.utf8ByteSize : Int) + Value.Len e.Value.value)) ∧
      ((insertOrUpdate c key value).nbytes ≤ c.maxBytes →
        gone = [] ∧ d = insertOrUpdate c key value) := by
  have hinv := h.inv
  have hm := hinv.insertOrUpdate key value
  have hf := insertOrUpdate_frame c key value
  obtain ⟨gone, _, hl, hdeq, _, _, _, _, hover, _, _, _, hnb⟩ := Add_spec hinv hd
  refine ⟨gone, hl, hdeq, ?_, ?_⟩
  · intro e rest hg
    have hsplit : (insertOrUpdate c key value).ll = (d.ll ++ [e]) ++ rest := by
      rw [hl, hg]; simp
    obtain ⟨_, h2, _, _, h5, _, _⟩ := iterate_RemoveOldest hm hsplit
    have hb := hover rest.length (by rw [hg]; simp)
    rw [overBudget_iff, h2, h5, hf.1] at hb
    have he : 0 ≤ Value.Len e.Value.value :=
      insertOrUpdate_nonneg hinv hnn key hv e (by rw [hl, hg]; simp)
    rw [hnb, hg]
    simp only [List.map_cons, List.sum_cons]
    have hraw : rawBytes e.Value =
        (e.Value.key.utf8ByteSize : Int) + Value.Len e.Value.value := rfl
    rw [hraw]
    have := hb.2
    unfold wrap64 at this ⊢
    omega
  · intro hle
    have hg : gone = [] := by
      cases hgone : gone with
      | nil => rfl
      | cons e rest =>
        exfalso
        have hb := hover 0 (by rw [hgone]; simp)
        rw [Function.iterate_zero, id, overBudget_iff, hf.1] at hb
        omega
    refine ⟨hg, ?_⟩
    rw [hdeq, hg]; rfl

theorem C17_no_excess_eviction_witness :
    (∀ e ∈ cacheAB.ll, 0 ≤ Value.Len e.Value.value) ∧ 0 ≤ Value.Len v0 ∧
    Add 1 cacheAB "c" v0 = some cacheBC ∧
    ∃ gone, (insertOrUpdate cacheAB "c" v0).ll = cacheBC.ll ++ gone ∧
      cacheBC = RemoveOldest^[gone.length] (insertOrUpdate cacheAB "c" v0) ∧
      (∀ e rest, gone = e :: rest →
        cacheAB.maxBytes < cacheBC.nbytes +
          ((e.Value.key.utf8ByteSize : Int) + Value.Len e.Value.value)) ∧
      ((insertOrUpdate cacheAB "c" v0).nbytes ≤ cacheAB.maxBytes →
        gone = [] ∧ cacheBC = insertOrUpdate cacheAB "c" v0) :=
  ⟨by decide, by decide, by decide,
    C17_no_excess_eviction cacheAB cacheAB_reachable "c" v0 (by decide) (by decide) 1 cacheBC
      (by decide)⟩

/-- C18, as stated, fails for the accounting invariant when the sum leaves the
range of `int64`: after `Add("b", v0)` and `Add("a", v)` with
`v.Len() = 2^63 - 1` on `New(0, cb)`, `RemoveOldest` enters the callback for
`"b"` with the list holding `"a"` alone and `nbytes == -2^63`, while the
contribution of `"a"` is `2^63`. -/
theorem C18_counterexample :
    Reachable cacheBMax ∧ cacheBMax.OnEvicted = true ∧
    (RemoveOldest cacheBMax).calls =
      [⟨"b", v0, [⟨1, ⟨"a", vMax⟩⟩], [("a", 1)], -9223372036854775808⟩] ∧
    (-9223372036854775808 : Int) ≠
      (([⟨1, ⟨"a", vMax⟩⟩] : List (Element Sized)).map
        (fun e => (e.Value.key.utf8ByteSize : Int) + Value.Len e.Value.value)).sum :=
  ⟨cacheBMax_reachable, rfl, by decide, by decide⟩

/-- C18, amended (the callback observes a consistent cache, the accounting
being in `int64`): on a reachable cache with `OnEvicted` configured whose list
ends with `e = (k, v)`, the invocation made by `RemoveOldest` is entered with
`(k, v)` and with the cache that `RemoveOldest` leaves: `e` removed from the
list, `k` deleted from the map, `nbytes` reduced by `len(k) + v.Len()` with
`int64` wrap-around; and every invocation recorded in the log of a reachable
cache, whether made by a direct `RemoveOldest` or from the loop of `Add`, saw a
cache in which the index/order agreement holds, `nbytes` is the sum of the
contributions reduced to `int64` (the sum itself when it lies in the range of
`int64`), and from which the evicted key is absent. -/
theorem C18_callback_consistent (c : Cache V) (h : Reachable c) :
    (∀ r ∈ c.calls, SnapshotOK r ∧
      (-9223372036854775808 ≤ (r.ll.map (fun e => rawBytes e.Value)).sum →
        (r.ll.map (fun e => rawBytes e.Value)).sum < 9223372036854775808 →
        r.nbytes = (r.ll.map (fun e => rawBytes e.Value)).sum)) ∧
    (∀ init e, c.ll = init ++ [e] → c.OnEvicted = true →
      ∃ r, (RemoveOldest c).calls = c.calls ++ [r] ∧
        r.key = e.Value.key ∧ r.value = e.Value.value ∧
        r.ll = init ∧ r.ll = (RemoveOldest c).ll ∧
        r.cache = mapDelete c.cache e.Value.key ∧ r.cache = (RemoveOldest c).cache ∧
        r.nbytes =
          wrap64 (c.nbytes -
            ((e.Value.key.utf8ByteSize : Int) + Value.Len e.Value.value)) ∧
        r.nbytes = (RemoveOldest c).nbytes ∧
        SnapshotOK r) := by
  have hinv := h.inv
  refine ⟨fun r hr => ⟨h.calls_ok r hr, fun h1 h2 => ?_⟩, ?_⟩
  · rw [(h.calls_ok r hr).acct, wrap64_eq_self h1 h2]
  intro init e hl hcb
  have hR := RemoveOldest_back hinv hl
  refine ⟨evictionRecord c init e, ?_, rfl, rfl, rfl, ?_, rfl, ?_, ?_, ?_,
    evictionRecord_ok hinv hl⟩
  · rw [RemoveOldest_calls hinv hl, hcb]; rfl
  · rw [hR]; rfl
  · rw [hR]; rfl
  · show wrap64 (c.nbytes - entryBytes e.Value) = _
    unfold entryBytes
    exact wrap64_sub_right _ _
  · rw [hR]; rfl

theorem C18_callback_consistent_witness :
    Reachable cacheBC ∧
    ((∀ r ∈ cacheBC.calls, SnapshotOK r ∧
      (-9223372036854775808 ≤ (r.ll.map (fun e => rawBytes e.Value)).sum →
        (r.ll.map (fun e => rawBytes e.Value)).sum < 9223372036854775808 →
        r.nbytes = (r.ll.map (fun e => rawBytes e.Value)).sum)) ∧
    (∀ init e, cacheBC.ll = init ++ [e] → cacheBC.OnEvicted = true →
      ∃ r, (RemoveOldest cacheBC).calls = cacheBC.calls ++ [r] ∧
        r.key = e.Value.key ∧ r.value = e.Value.value ∧
        r.ll = init ∧ r.ll = (RemoveOldest cacheBC).ll ∧
        r.cache = mapDelete cacheBC.cache e.Value.key ∧
        r.cache = (RemoveOldest cacheBC).cache ∧
        r.nbytes =
          wrap64 (cacheBC.nbytes -
            ((e.Value.key.utf8ByteSize : Int) + Value.Len e.Value.value)) ∧
        r.nbytes = (RemoveOldest cacheBC).nbytes ∧
        SnapshotOK r)) :=
  have hBC : Reachable cacheBC :=
    Reachable.add cacheAB "c" v0 1 cacheBC cacheAB_reachable (by decide)
  ⟨hBC, C18_callback_consistent cacheBC hBC⟩

/-- C19 (Add touches only its own key's value): for every reachable cache and
every `Add(key, value)` that returns, every other key still present after the
call has the value it had before (and `Get` returns for it what it would have
returned before), and no other key absent before the call is present after. -/
theorem C19_add_frame (c : Cache V) (h : Reachable c) (key : String) (value : V)
    (fuel : Nat) (d : Cache V) (hd : Add fuel c key value = some d) :
    (∀ k, k ≠ key → contains d k = true →
      contains c k = true ∧ lookupValue d k = lookupValue c k ∧
        (Get d k).1 = (Get c k).1) ∧
    (∀ k, k ≠ key → contains c k = false → contains d k = false) := by
  have hinv := h.inv
  have hdinv := hinv.Add hd
  have hm := hinv.insertOrUpdate key value
  obtain ⟨gone, hl, _⟩ := evictLoop_spec hm hd
  have hkeep : ∀ k, k ≠ key → contains d k = true →
      contains c k = true ∧ lookupValue d k = lookupValue c k := by
    intro k hk hpres
    obtain ⟨a, ha⟩ := Option.isSome_iff_exists.1 hpres
    obtain ⟨e, he, hek, _⟩ := hdinv.deref ha
    have hed : e ∈ d.ll := (elementAt_mem he).1
    have hdv : lookupValue d k = some e.Value.value :=
      (lookupValue_eq_some hdinv).2 ⟨e, hed, hek, rfl⟩
    have hmv : lookupValue (insertOrUpdate c key value) k = some e.Value.value :=
      (lookupValue_eq_some hm).2 ⟨e, by rw [hl]; exact List.mem_append_left _ hed, hek, rfl⟩
    rw [lookupValue_insertOrUpdate hinv, if_neg hk] at hmv
    obtain ⟨x, hx, hxk, _⟩ := (lookupValue_eq_some hinv).1 hmv
    have hcx := hinv.lookup_of_mem hx
    rw [hxk] at hcx
    exact ⟨by simp [contains, hcx], by rw [hdv, hmv]⟩
  constructor
  · intro k hk hpres
    obtain ⟨h1, h2⟩ := hkeep k hk hpres
    exact ⟨h1, h2, by rw [Get_fst, Get_fst, h2]⟩
  · intro k hk habs
    cases hdk : contains d k with
    | false => rfl
    | true =>
      have := (hkeep k hk hdk).1
      rw [habs] at this
      cases this

theorem C19_add_frame_witness :
    Add 1 cacheAB "c" v0 = some cacheBC ∧
    ((∀ k, k ≠ "c" → contains cacheBC k = true →
      contains cacheAB k = true ∧ lookupValue cacheBC k = lookupValue cacheAB k ∧
        (Get cacheBC k).1 = (Get cacheAB k).1) ∧
    (∀ k, k ≠ "c" → contains cacheAB k = false → contains cacheBC k = false)) :=
  ⟨by decide, C19_add_frame cacheAB cacheAB_reachable "c" v0 1 cacheBC (by decide)⟩

/-- C20, as stated, fails when the addition overflows: on `New(-1, nil)`,
`Add("a", v)` with `v.Len() = 2^63 - 1` (a non-negative size) sets `nbytes` to
`-2^63`, so the guard `-1 < nbytes` is false after the insert step and `Add`
returns at once with the entry kept. -/
theorem C20_counterexample :
    Reachable (New (-1) false : Cache Sized) ∧
    (New (-1) false : Cache Sized).maxBytes < 0 ∧ 0 ≤ Value.Len vMax ∧
    overBudget (insertOrUpdate (New (-1) false : Cache Sized) "a" vMax) = false ∧
    (Add 0 (New (-1) false : Cache Sized) "a" vMax).map (fun d => (Len d, d.nbytes)) =
      some (1, -9223372036854775808) :=
  ⟨Reachable.new (-1) false, by decide, by decide, by decide, by decide⟩

/-- C20, amended (a negative budget leaves the loop of `Add` without exit when
no addition overflows): for every reachable cache with `maxBytes < 0` holding
values of non-negative size (in particular the cache `New(maxBytes, _)`
itself) and every `Add(key, value)` with `value.Len() >= 0`, such that the
contributions of the live entries plus `len(key) + value.Len()` total less
than `2^63`, the guard of the loop holds after the insert/update step and
after any number of `RemoveOldest` calls; once the list has been emptied
`nbytes == 0`, the guard still holds and `RemoveOldest` is the identity; so no
number of iterations lets `Add` return. -/
theorem C20_negative_budget (c : Cache V) (h : Reachable c) (hB : c.maxBytes < 0)
    (hnn : ∀ e ∈ c.ll, 0 ≤ Value.Len e.Value.value) (key : String) (value : V)
    (hv : 0 ≤ Value.Len value)
    (hfits : (c.ll.map
        (fun e => (e.Value.key.utf8ByteSize : Int) + Value.Len e.Value.value)).sum +
      ((key.utf8ByteSize : Int) + Value.Len value) < 9223372036854775808) :
    overBudget (insertOrUpdate c key value) = true ∧
    (∀ i, overBudget (RemoveOldest^[i] (insertOrUpdate c key value)) = true) ∧
    (RemoveOldest^[(insertOrUpdate c key value).ll.length]
      (insertOrUpdate c key value)).ll = [] ∧
    (RemoveOldest^[(insertOrUpdate c key value).ll.length]
      (insertOrUpdate c key value)).nbytes = 0 ∧
    RemoveOldest (RemoveOldest^[(insertOrUpdate c key value).ll.length]
      (insertOrUpdate c key value)) =
        RemoveOldest^[(insertOrUpdate c key value).ll.length]
          (insertOrUpdate c key value) ∧
    (∀ fuel, Add fuel c key value = none) := by
  have hneg := NegBudget.afterInsert h.inv hB hnn key hv hfits
  have hnil : (insertOrUpdate c key value).ll = [] ++ (insertOrUpdate c key value).ll := by
    simp
  obtain ⟨h1, _, _, _, _, h6, _⟩ := iterate_RemoveOldest hneg.inv hnil
  refine ⟨hneg.guard, fun i => (hneg.iterate i).guard, h1, ?_,
    RemoveOldest_empty h1, fun fuel => hneg.loopNone fuel⟩
  rw [h6.acct, h1]; exact wrap64_zero

theorem C20_negative_budget_witness :
    Reachable (New (-1) false : Cache Sized) ∧ (New (-1) false : Cache Sized).maxBytes < 0 ∧
    (∀ e ∈ (New (-1) false : Cache Sized).ll, 0 ≤ Value.Len e.Value.value) ∧
    0 ≤ Value.Len v0 ∧
    ((New (-1) false : Cache Sized).ll.map
        (fun e => (e.Value.key.utf8ByteSize : Int) + Value.Len e.Value.value)).sum +
      ((("a".utf8ByteSize : Nat) : Int) + Value.Len v0) < 9223372036854775808 ∧
    (overBudget (insertOrUpdate (New (-1) false) "a" v0) = true ∧
    (∀ i, overBudget (RemoveOldest^[i] (insertOrUpdate (New (-1) false) "a" v0)) = true) ∧
    (RemoveOldest^[(insertOrUpdate (New (-1) false) "a" v0).ll.length]
      (insertOrUpdate (New (-1) false) "a" v0)).ll = [] ∧
    (RemoveOldest^[(insertOrUpdate (New (-1) false) "a" v0).ll.length]
      (insertOrUpdate (New (-1) false) "a" v0)).nbytes = 0 ∧
    RemoveOldest (RemoveOldest^[(insertOrUpdate (New (-1) false) "a" v0).ll.length]
      (insertOrUpdate (New (-1) false) "a" v0)) =
        RemoveOldest^[(insertOrUpdate (New (-1) false) "a" v0).ll.length]
          (insertOrUpdate (New (-1) false) "a" v0) ∧
    (∀ fuel, Add fuel (New (-1) false) "a" v0 = none)) :=
  ⟨Reachable.new (-1) false, by decide, by decide, by decide, by decide,
    C20_negative_budget (New (-1) false) (Reachable.new (-1) false) (by decide) (by decide)
      "a" v0 (by decide) (by decide)⟩

end Claims

end lru
